import Mathlib

/-!
# cube-3prime: `cube_cubeprime_fast.cpp`

A shallow embedding of the sieve, the Miller–Rabin oracle and the per-`n`
decomposition search of `cube_cubeprime_fast.cpp`, with the properties the
specification states about them.

Conventions of the embedding

* `uint32_t` / `uint64_t` / `__uint128_t` values are natural numbers; every
  operation that can wrap in the source is followed by an explicit
  `% U32`, `% U64` or `% U128`.
* `vector<uint8_t> mark` is a `List Bool` (`true` = composite).  A read or a
  write outside the vector is undefined behaviour in the source and `none`
  here.
* The `for`/`while` loops over machine integers are recursions on a fuel
  argument.  A loop whose control variable is a `uint32_t` that is stepped by
  a fixed amount either leaves within `2^32` rounds or never does, so
  `U32` fuel loses nothing: `none` then stands for a loop that does not
  terminate.
-/

namespace CubePrime

/-! ## Machine words -/

/-- Number of `uint32_t` values. -/
def U32 : Nat := 2 ^ 32

/-- Number of `uint64_t` values. -/
def U64 : Nat := 2 ^ 64

/-- Number of `__uint128_t` values. -/
def U128 : Nat := 2 ^ 128

/-- Unsigned 64-bit subtraction `a - b` (wraps around below zero). -/
def sub64 (a b : Nat) : Nat := (a + U64 - b % U64) % U64

/-! ## 1. Sieve -/

/-- The `struct Sieve`: `mark[x] = true` means `x` is composite. -/
structure Sieve where
  mark : List Bool
  primes : List Nat
deriving DecidableEq

/-- Checked write `mark[j] = 1`. -/
def setMark (mark : List Bool) (j : Nat) : Option (List Bool) :=
  if j < mark.length then some (mark.set j true) else none

/-- Inner loop of the constructor:
`for (uint32_t j = j0; j <= lim; j += i) mark[j] = 1;`. -/
def markMultiples (lim i : Nat) : Nat → Nat → List Bool → Option (List Bool)
  | 0, _, _ => none
  | fuel + 1, j, mark =>
    if j ≤ lim then
      match setMark mark j with
      | none => none
      | some mark1 => markMultiples lim i fuel ((j + i) % U32) mark1
    else some mark

/-- Outer loop of the constructor:
`for (uint32_t i = i0; i * i <= lim; ++i) if (!mark[i]) <inner loop>`. -/
def sieveLoop (lim : Nat) : Nat → Nat → List Bool → Option (List Bool)
  | 0, _, _ => none
  | fuel + 1, i, mark =>
    if (i * i) % U32 ≤ lim then
      match mark[i]? with
      | none => none
      | some true => sieveLoop lim fuel ((i + 1) % U32) mark
      | some false =>
        match markMultiples lim i U32 ((i * i) % U32) mark with
        | none => none
        | some mark1 => sieveLoop lim fuel ((i + 1) % U32) mark1
    else some mark

/-- Collecting loop of the constructor:
`for (uint32_t i = i0; i <= lim; ++i) if (!mark[i]) primes.push_back(i);`. -/
def collectPrimes (lim : Nat) (mark : List Bool) : Nat → Nat → List Nat → Option (List Nat)
  | 0, _, _ => none
  | fuel + 1, i, primes =>
    if i ≤ lim then
      match mark[i]? with
      | none => none
      | some true => collectPrimes lim mark fuel ((i + 1) % U32) primes
      | some false => collectPrimes lim mark fuel ((i + 1) % U32) (primes ++ [i])
    else some primes

/-- The constructor `Sieve(uint32_t lim)`. -/
def Sieve.build (lim : Nat) : Option Sieve :=
  let mark0 := List.replicate ((lim + 1) % U32) false
  match setMark mark0 1 with
  | none => none
  | some mark1 =>
    match setMark mark1 0 with
    | none => none
    | some mark2 =>
      match sieveLoop lim U32 2 mark2 with
      | none => none
      | some mark3 =>
        match collectPrimes lim mark3 U32 2 [] with
        | none => none
        | some primes => some { mark := mark3, primes := primes }

/-- The member `isPrimeSmall(uint32_t x)`: `!mark[x]`, a checked read. -/
def Sieve.isPrimeSmall (sv : Sieve) (x : Nat) : Option Bool :=
  match sv.mark[x]? with
  | none => none
  | some b => some (!b)

/-! ## 2. Deterministic Miller–Rabin -/

/-- The function `mul_mod`: `(uint64_t)((__uint128_t)a * b % m)`. -/
def mul_mod (a b m : Nat) : Nat := ((a * b) % U128 % m) % U64

/-- Loop of `pow_mod`:
`while (e) { if (e & 1) r = mul_mod(r, a, m); a = mul_mod(a, a, m); e >>= 1; }`
followed by `return r`. -/
def powLoop (m : Nat) : Nat → Nat → Nat → Nat → Option Nat
  | 0, _, _, _ => none
  | fuel + 1, a, e, r =>
    if e = 0 then some r
    else powLoop m fuel (mul_mod a a m) (e / 2) (if e % 2 = 1 then mul_mod r a m else r)

/-- The function `pow_mod`.  A `uint64_t` exponent is zero after at most 64
shifts, so 65 rounds of fuel always reach the exit test. -/
def pow_mod (a e m : Nat) : Option Nat := powLoop m 65 a e 1

/-- Loop `while (!(d & 1)) { d >>= 1; ++r; }` of `isPrime64`, giving the final
`(d, r)`.  For `d = 0` the source loops for ever; a non-zero `uint64_t` is odd
after at most 63 shifts. -/
def splitTwos : Nat → Nat → Nat → Option (Nat × Nat)
  | 0, _, _ => none
  | fuel + 1, d, r =>
    if d % 2 = 0 then splitTwos fuel (d / 2) ((r + 1) % U64) else some (d, r)

/-- Loop `for (uint64_t i = 1; i < r; ++i) { x = mul_mod(x, x, n); if (x == n - 1)
{ composite = false; break; } }`, by recursion on the number `r - i` of rounds
that are left; the value is the final `composite` flag. -/
def squareLoop (n : Nat) : Nat → Nat → Bool
  | 0, _ => true
  | k + 1, x =>
    if mul_mod x x n = n - 1 then false else squareLoop n k (mul_mod x x n)

/-- The array `bases` of `isPrime64`. -/
def bases : List Nat := [2, 3, 5, 7, 11, 13, 17]

/-- Loop `for (uint64_t a : bases)` of `isPrime64`, with `return true` after it. -/
def basesLoop (n d r : Nat) : List Nat → Option Bool
  | [] => some true
  | a :: rest =>
    if a ≥ n then some true
    else
      match pow_mod a d n with
      | none => none
      | some x =>
        if x = 1 ∨ x = n - 1 then basesLoop n d r rest
        else if squareLoop n (r - 1) x then some false
        else basesLoop n d r rest

/-- The function `isPrime64`.  In the second branch `n > 10'000'000`, so `n - 1`
does not wrap. -/
def isPrime64 (n : Nat) (sv : Sieve) : Option Bool :=
  if n ≤ 10000000 then sv.isPrimeSmall (n % U32)
  else if n % 2 = 0 then some false
  else
    match splitTwos 64 (n - 1) 0 with
    | none => none
    | some (d, r) => basesLoop n d r bases

/-! ## 3. Single cube test -/

/-- First line of `cube_repr`: `(uint64_t)((__uint128_t)n * n * n)`. -/
def cube64 (n : Nat) : Nat := ((n * n) % U128 * n) % U128 % U64

/-- What `cube_repr` found: the addends it writes into `line`. -/
inductive Found where
  | even (p q : Nat)
  | triple (p q r : Nat)
  | nothing
deriving DecidableEq

/-- Phase 0 loop `for (uint32_t p : sv.primes)`.  `none` is undefined
behaviour, `some none` a loop left without a match, `some (some (p, q))` the
`return true` with `2 + p + q`. -/
def phase0 (sv : Sieve) (m : Nat) : List Nat → Option (Option (Nat × Nat))
  | [] => some none
  | p :: rest =>
    if p ≥ m then some none
    else if sub64 (sub64 m 2) p ≤ p then some none
    else
      match isPrime64 (sub64 (sub64 m 2) p) sv with
      | none => none
      | some b =>
        if b && sub64 (sub64 m 2) p != 2 && p != 2 then some (some (p, sub64 (sub64 m 2) p))
        else phase0 sv m rest

/-- Phase 1 inner loop `for (size_t j = i + 1; j < sv.primes.size(); ++j)` over
the primes after `p`; a match is `(q, r)`. -/
def phase1Inner (sv : Sieve) (m p : Nat) : List Nat → Option (Option (Nat × Nat))
  | [] => some none
  | q :: rest =>
    if sub64 (sub64 m p) q < q then some none
    else
      match isPrime64 (sub64 (sub64 m p) q) sv with
      | none => none
      | some b =>
        if b && sub64 (sub64 m p) q != p && sub64 (sub64 m p) q != q then
          some (some (q, sub64 (sub64 m p) q))
        else phase1Inner sv m p rest

/-- Phase 1 outer loop `for (size_t i = 0; i < sv.primes.size(); ++i)`, by
recursion on the primes from index `i` on: the head is `sv.primes[i]` and the
tail is what the inner loop runs over. -/
def phase1 (sv : Sieve) (m : Nat) : List Nat → Option (Option (Nat × Nat × Nat))
  | [] => some none
  | p :: rest =>
    if (p * 3) % U128 > m then some none
    else
      match phase1Inner sv m p rest with
      | none => none
      | some (some (q, r)) => some (some (p, q, r))
      | some none => phase1 sv m rest

/-- The search of `cube_repr` on `m`: phase 0 when `m` is even, then phase 1. -/
def searchCube (sv : Sieve) (m : Nat) : Option Found :=
  match (if m % 2 = 0 then phase0 sv m sv.primes else some none) with
  | none => none
  | some (some (p, q)) => some (Found.even p q)
  | some none =>
    match phase1 sv m sv.primes with
    | none => none
    | some (some (p, q, r)) => some (Found.triple p q r)
    | some none => some Found.nothing

/-- The string `cube_repr` leaves in `line` and the boolean it returns. -/
def render (n m : Nat) : Found → Bool × String
  | Found.even p q =>
    (true, toString n ++ "^3 = " ++ toString m ++ " = 2 + " ++ toString p ++ " + " ++ toString q)
  | Found.triple p q r =>
    (true, toString n ++ "^3 = " ++ toString m ++ " = " ++
      toString p ++ " + " ++ toString q ++ " + " ++ toString r)
  | Found.nothing =>
    (false, toString n ++ "^3 = " ++ toString m ++ ": NO REPRESENTATION FOUND")

/-- The function `cube_repr`: the returned boolean and the final `line`. -/
def cube_repr (n : Nat) (sv : Sieve) : Option (Bool × String) :=
  match searchCube sv (cube64 n) with
  | none => none
  | some f => some (render n (cube64 n) f)

/-! ## Specification vocabulary -/

/-- The number `x` has been crossed out once every prime below `k` has been
used: it is `0`, `1`, or a multiple, from the square on, of such a prime. -/
def Crossed (k x : Nat) : Prop :=
  x < 2 ∨ ∃ p, p < k ∧ Nat.Prime p ∧ p ∣ x ∧ p * p ≤ x

/-- Largest limit for which no `uint32_t` operation of the constructor wraps:
the exit test `i * i <= lim` is last evaluated at some `i ≤ 65535`. -/
def limBound : Nat := 65535 * 65535

/-- The state of a correctly built sieve with limit `lim`. -/
structure Sieve.Valid (sv : Sieve) (lim : Nat) : Prop where
  length_mark : sv.mark.length = lim + 1
  mark_iff : ∀ x, x ≤ lim → (sv.mark[x]? = some true ↔ ¬ Nat.Prime x)
  primes_eq : sv.primes = (List.range' 2 (lim - 1)).filter (fun x => decide (Nat.Prime x))

/-! ## Spec-side vocabulary and a test vector -/

/-- The documented shape of a line with a decomposition:
`<n>^3 = <n³> = <addend> + <addend> + <addend>`. -/
def lineFound (n a b c : Nat) : String :=
  toString n ++ "^3 = " ++ toString (n ^ 3) ++ " = " ++
    toString a ++ " + " ++ toString b ++ " + " ++ toString c

/-- The documented shape of a line without a decomposition:
`<n>^3 = <n³>: NO REPRESENTATION FOUND`. -/
def lineNone (n : Nat) : String :=
  toString n ++ "^3 = " ++ toString (n ^ 3) ++ ": NO REPRESENTATION FOUND"

/-- The sieve that `Sieve(60)` constructs, written out. -/
def sieve60 : Sieve where
  mark := [true, true, false, false, true, false, true, false, true, true, true, false, true,
    false, true, true, true, false, true, false, true, true, true, false, true, true, true,
    true, true, false, true, false, true, true, true, true, true, false, true, true, true,
    false, true, false, true, true, true, false, true, true, true, true, true, false, true,
    true, true, true, true, false, true]
  primes := [2, 3, 5, 7, 11, 13, 17, 19, 23, 29, 31, 37, 41, 43, 47, 53, 59]

/-! ## Ghost traces of the search loops -/

/-- The candidates `p` at which the phase 0 loop evaluates `q = m - 2 - p`, in
the order of evaluation: the loop `phase0` with its results replaced by the
record of the iterations that get past `if (p >= m) break;`. -/
def phase0Trace (sv : Sieve) (m : Nat) : List Nat → List Nat
  | [] => []
  | p :: rest =>
    if p ≥ m then []
    else if sub64 (sub64 m 2) p ≤ p then [p]
    else
      match isPrime64 (sub64 (sub64 m 2) p) sv with
      | none => [p]
      | some b =>
        if b && sub64 (sub64 m 2) p != 2 && p != 2 then [p]
        else p :: phase0Trace sv m rest

/-- The candidates `q` at which the inner loop of phase 1 evaluates
`r = m - p - q`, in the order of evaluation. -/
def phase1InnerTrace (sv : Sieve) (m p : Nat) : List Nat → List Nat
  | [] => []
  | q :: rest =>
    if sub64 (sub64 m p) q < q then [q]
    else
      match isPrime64 (sub64 (sub64 m p) q) sv with
      | none => [q]
      | some b =>
        if b && sub64 (sub64 m p) q != p && sub64 (sub64 m p) q != q then [q]
        else q :: phase1InnerTrace sv m p rest

/-- The pairs `(p, q)` at which phase 1 evaluates `r = m - p - q`, in the order
of evaluation. -/
def phase1Trace (sv : Sieve) (m : Nat) : List Nat → List (Nat × Nat)
  | [] => []
  | p :: rest =>
    if (p * 3) % U128 > m then []
    else
      (phase1InnerTrace sv m p rest).map (fun q => (p, q)) ++
        (match phase1Inner sv m p rest with
          | some none => phase1Trace sv m rest
          | _ => [])

/-! ## 4. Threading context and worker

The workers are modelled by their interleavings.  The atomic actions of a
worker are one round of its loop (the `fetch_add` on `next`, which is a
read-modify-write and so takes the latest value whatever the memory order,
followed by work on data of its own) and the merge of its buffer into `out`
under the mutex.  A schedule names the worker that performs the next action.
-/

/-- Where a worker stands: in its `while` loop, past it and about to merge, or
returned. -/
inductive Pc where
  | looping
  | leaving
  | done
deriving DecidableEq

/-- A worker: its position and its vector `local`. -/
structure Worker (α : Type) where
  pc : Pc
  loc : List α

/-- The shared fields of `Ctx` that change: the cursor `next` and the vector
`out`. -/
structure Ctx (α : Type) where
  next : Nat
  out : List α

/-- One atomic action of a worker; `work n` is the line that `cube_repr(n, …)`
produces and `stop` is `c.end`.
In the loop: `n = c.next.fetch_add(1)`; if `n <= c.end` the line of `n` is
pushed to `local`, otherwise the loop is left.  Past the loop: `local` is
appended to `c.out` under the lock and the worker returns. -/
def stepWorker {α : Type} (work : Nat → α) (stop : Nat) (c : Ctx α) (w : Worker α) :
    Ctx α × Worker α :=
  match w.pc with
  | Pc.looping =>
    if c.next ≤ stop then
      (Ctx.mk ((c.next + 1) % U64) c.out, Worker.mk Pc.looping (w.loc ++ [work c.next]))
    else (Ctx.mk ((c.next + 1) % U64) c.out, Worker.mk Pc.leaving w.loc)
  | Pc.leaving => (Ctx.mk c.next (c.out ++ w.loc), Worker.mk Pc.done w.loc)
  | Pc.done => (c, w)

/-- The action of the worker with index `i` in the pool (none when there is no
such worker). -/
def stepAt {α : Type} (work : Nat → α) (stop : Nat) :
    Nat → Ctx α → List (Worker α) → Ctx α × List (Worker α)
  | _, c, [] => (c, [])
  | 0, c, w :: ws => ((stepWorker work stop c w).1, (stepWorker work stop c w).2 :: ws)
  | i + 1, c, w :: ws => ((stepAt work stop i c ws).1, w :: (stepAt work stop i c ws).2)

/-- A run of the pool under a schedule, the list of the workers that act. -/
def runPool {α : Type} (work : Nat → α) (stop : Nat) :
    Ctx α × List (Worker α) → List Nat → Ctx α × List (Worker α)
  | s, [] => s
  | s, i :: sched => runPool work stop (stepAt work stop i s.1 s.2) sched

/-- The state in which `main` starts `k` workers: `next = start`, `out` empty,
every worker at the head of its loop with an empty `local`. -/
def initPool {α : Type} (start k : Nat) : Ctx α × List (Worker α) :=
  (Ctx.mk start [], List.replicate k (Worker.mk Pc.looping []))

/-- The lines a worker holds that are not yet in `out`. -/
def pendingOf {α : Type} (w : Worker α) : List α :=
  if w.pc = Pc.done then [] else w.loc

/-- All lines held by the workers and not yet in `out`, as a multiset. -/
def pend {α : Type} : List (Worker α) → Multiset α
  | [] => 0
  | w :: ws => (pendingOf w : Multiset α) + pend ws

/-- The number of workers that have left their loop. -/
def leftCount {α : Type} : List (Worker α) → Nat
  | [] => 0
  | w :: ws => (if w.pc = Pc.looping then 0 else 1) + leftCount ws

/-- The invariant of a run that started at `next = start` with `k` workers: the
lines in `out` and in the hands of the workers are those of
`start, …, start + c - 1`, each once, and the cursor has been advanced once for
each of them and once for each worker that left its loop. -/
def PoolInv {α : Type} (work : Nat → α) (start stop k : Nat)
    (s : Ctx α × List (Worker α)) : Prop :=
  s.2.length = k ∧
  ∃ c, ((s.1.out : Multiset α) + pend s.2 = ((List.range' start c).map work : Multiset α)) ∧
    c ≤ stop + 1 - start ∧ s.1.next = start + c + leftCount s.2 ∧
    (0 < leftCount s.2 → c = stop + 1 - start)

/-! ## 5. The final sort of `main` -/

/-- The expression `x.substr(0, x.find('^'))`: the characters of `x` before the
first `^`, all of `x` when it has none. -/
def beforeCaret (x : String) : List Char :=
  x.data.takeWhile (fun c => c != '^')

/-- Value of a sequence of decimal digits, most significant first. -/
def digitsValue (ds : List Char) : Nat :=
  ds.foldl (fun acc c => 10 * acc + (c.toNat - 48)) 0

/-- The library function `std::stoull` on a sequence that starts with a decimal
digit: the value of its longest prefix of digits.  `none` stands for the
exception the library raises when the value does not fit 64 bits, and for
every input that does not start with a digit (leading white space and signs
are not modelled). -/
def stoull (cs : List Char) : Option Nat :=
  if cs.takeWhile Char.isDigit = [] then none
  else if digitsValue (cs.takeWhile Char.isDigit) < U64 then
    some (digitsValue (cs.takeWhile Char.isDigit))
  else none

/-- The number `stoull(x.substr(0, x.find('^')))` that the comparator of `main`
reads off a line. -/
def lineKey (x : String) : Option Nat := stoull (beforeCaret x)

/-- The comparator of `main`: `stoull(x.substr(…)) < stoull(y.substr(…))`;
`none` when `stoull` raises. -/
def cmpLines (x y : String) : Option Bool :=
  match lineKey x, lineKey y with
  | some a, some b => some (decide (a < b))
  | _, _ => none

/-- The order in which the library sort leaves two lines whose keys it could
read: `y` is not less than `x`. -/
def keyLe (x y : String) : Prop := (lineKey x).getD 0 ≤ (lineKey y).getD 0

instance keyLe_decidable : DecidableRel keyLe :=
  fun x y => inferInstanceAs (Decidable ((lineKey x).getD 0 ≤ (lineKey y).getD 0))

/-- The call `sort(ctx.out.begin(), ctx.out.end(), comparator)`.  The library
sort is taken to be an insertion sort; with fewer than two lines it makes no
comparison, otherwise it compares every line at least once, so that a line
whose key cannot be read makes it raise (`none`). -/
def sortLines (out : List String) : Option (List String) :=
  if out.length ≤ 1 then some out
  else if out.all (fun x => (lineKey x).isSome) then some (out.insertionSort keyLe)
  else none

/-- The string that `cube_repr(n, sv, line)` leaves in `line` (empty when the
call is undefined). -/
def lineOf (sv : Sieve) (n : Nat) : String :=
  match cube_repr n sv with
  | some (_, line) => line
  | none => ""

/-! ## Theorems: the sieve -/

theorem setMark_eq {mark : List Bool} {j : Nat} (h : j < mark.length) :
    setMark mark j = some (mark.set j true) := by
  simp [setMark, h]

theorem getElem?_set_true_iff {mark : List Bool} {j : Nat} (h : j < mark.length) (x : Nat) :
    (mark.set j true)[x]? = some true ↔ (x = j ∨ mark[x]? = some true) := by
  rw [List.getElem?_set]
  by_cases hx : j = x
  · subst hx; simp [h]
  · have hx1 : ¬ x = j := fun e => hx e.symm
    simp [hx, hx1]

/-- The inner loop, started at `j`, sets exactly the entries `j, j + i, j + 2i, …`
up to `lim`. -/
theorem markMultiples_spec (lim i : Nat) (hi : 0 < i) (hwrap : lim + i < U32) :
    ∀ (fuel j : Nat) (mark : List Bool), mark.length = lim + 1 → lim + 1 - j < fuel →
      ∃ mark1, markMultiples lim i fuel j mark = some mark1 ∧ mark1.length = lim + 1 ∧
        ∀ x, (mark1[x]? = some true ↔
          (mark[x]? = some true ∨ (j ≤ x ∧ x ≤ lim ∧ ∃ t, x = j + t * i))) := by
  intro fuel
  induction fuel with
  | zero => intro j mark _ h; omega
  | succ fuel ih =>
    intro j mark hlen hfuel
    by_cases hj : j ≤ lim
    · have hjl : j < mark.length := by omega
      have hmod : (j + i) % U32 = j + i := Nat.mod_eq_of_lt (by omega)
      obtain ⟨mark1, h1, h2, h3⟩ := ih (j + i) (mark.set j true) (by simpa using hlen) (by omega)
      refine ⟨mark1, ?_, h2, ?_⟩
      · simp only [markMultiples, if_pos hj, setMark_eq hjl, hmod, h1]
      · intro x
        rw [h3 x, getElem?_set_true_iff hjl]
        constructor
        · rintro ((rfl | h) | ⟨a1, a2, t, a3⟩)
          · exact Or.inr ⟨le_refl _, hj, 0, by simp⟩
          · exact Or.inl h
          · exact Or.inr ⟨by omega, a2, t + 1, by rw [Nat.succ_mul]; omega⟩
        · rintro (h | ⟨b1, b2, t, b3⟩)
          · exact Or.inl (Or.inr h)
          · cases t with
            | zero => exact Or.inl (Or.inl (by simpa using b3))
            | succ t =>
              rw [Nat.succ_mul] at b3
              exact Or.inr ⟨by omega, b2, t, by omega⟩
    · refine ⟨mark, ?_, hlen, ?_⟩
      · simp only [markMultiples, if_neg hj]
      · intro x
        constructor
        · exact Or.inl
        · rintro (h | ⟨a, b, -⟩)
          · exact h
          · omega

theorem crossed_succ (i x : Nat) :
    Crossed (i + 1) x ↔ (Crossed i x ∨ (Nat.Prime i ∧ i ∣ x ∧ i * i ≤ x)) := by
  unfold Crossed
  constructor
  · rintro (h | ⟨p, hp, hpp, hd, hs⟩)
    · exact Or.inl (Or.inl h)
    · rcases Nat.lt_succ_iff_lt_or_eq.mp hp with h | rfl
      · exact Or.inl (Or.inr ⟨p, h, hpp, hd, hs⟩)
      · exact Or.inr ⟨hpp, hd, hs⟩
  · rintro ((h | ⟨p, hp, hpp, hd, hs⟩) | ⟨hpp, hd, hs⟩)
    · exact Or.inl h
    · exact Or.inr ⟨p, Nat.lt_succ_of_lt hp, hpp, hd, hs⟩
    · exact Or.inr ⟨i, Nat.lt_succ_self i, hpp, hd, hs⟩

theorem minFac_witness {x : Nat} (hx : 2 ≤ x) (hnp : ¬ Nat.Prime x) :
    Nat.Prime x.minFac ∧ x.minFac ∣ x ∧ x.minFac * x.minFac ≤ x := by
  refine ⟨Nat.minFac_prime (by omega), Nat.minFac_dvd x, ?_⟩
  have := Nat.minFac_sq_le_self (by omega : 0 < x) hnp
  simpa [sq] using this

theorem crossed_of_lt_sq {i x : Nat} (hx : x < i * i) : Crossed i x ↔ ¬ Nat.Prime x := by
  unfold Crossed
  constructor
  · rintro (h | ⟨p, -, hpp, hd, hs⟩) hprime
    · exact absurd hprime.two_le (by omega)
    · rcases hprime.eq_one_or_self_of_dvd p hd with h1 | h1
      · exact hpp.ne_one h1
      · subst h1
        have h2 := hprime.two_le
        nlinarith
  · intro hnp
    by_cases h2 : x < 2
    · exact Or.inl h2
    · obtain ⟨a, b, c⟩ := minFac_witness (by omega : 2 ≤ x) hnp
      refine Or.inr ⟨x.minFac, ?_, a, b, c⟩
      by_contra hle
      have hle1 : i ≤ x.minFac := by omega
      have : i * i ≤ x.minFac * x.minFac := Nat.mul_le_mul hle1 hle1
      omega

theorem crossed_self {i : Nat} (hi : 2 ≤ i) : Crossed i i ↔ ¬ Nat.Prime i := by
  unfold Crossed
  constructor
  · rintro (h | ⟨p, hp, hpp, hd, -⟩) hprime
    · omega
    · rcases hprime.eq_one_or_self_of_dvd p hd with h1 | h1
      · exact hpp.ne_one h1
      · omega
  · intro hnp
    obtain ⟨a, b, c⟩ := minFac_witness hi hnp
    refine Or.inr ⟨i.minFac, ?_, a, b, c⟩
    have h2 := a.two_le
    nlinarith

theorem lt_of_sq_le_limBound {i lim : Nat} (h : i * i ≤ lim) (hlim : lim < limBound) :
    i < 65535 := by
  by_contra hle
  have hle1 : 65535 ≤ i := by omega
  have : 65535 * 65535 ≤ i * i := Nat.mul_le_mul hle1 hle1
  unfold limBound at hlim
  omega

/-- The outer loop, entered at `i` with everything crossed out that the primes
below `i` cross out, ends with exactly the non-primes marked. -/
theorem sieveLoop_spec (lim : Nat) (hlim : lim < limBound) :
    ∀ (fuel i : Nat) (mark : List Bool), 2 ≤ i → (i - 1) * (i - 1) ≤ lim → lim + 1 < fuel + i →
      mark.length = lim + 1 → (∀ x, x ≤ lim → (mark[x]? = some true ↔ Crossed i x)) →
      ∃ mark1, sieveLoop lim fuel i mark = some mark1 ∧ mark1.length = lim + 1 ∧
        ∀ x, x ≤ lim → (mark1[x]? = some true ↔ ¬ Nat.Prime x) := by
  intro fuel
  induction fuel with
  | zero =>
    intro i mark hi hprev hfuel
    have : i - 1 ≤ (i - 1) * (i - 1) := Nat.le_mul_self _
    omega
  | succ fuel ih =>
    intro i mark hi hprev hfuel hlen hinv
    have hi1 : i - 1 < 65535 := lt_of_sq_le_limBound hprev hlim
    have hii : i * i < U32 := by
      have : i * i ≤ 65535 * 65535 := Nat.mul_le_mul (by omega) (by omega)
      unfold U32; omega
    have hmod : (i * i) % U32 = i * i := Nat.mod_eq_of_lt hii
    have hmod1 : (i + 1) % U32 = i + 1 := Nat.mod_eq_of_lt (by unfold U32; omega)
    by_cases htest : i * i ≤ lim
    · have hile : i ≤ lim := le_trans (Nat.le_mul_self i) htest
      have hprev1 : (i + 1 - 1) * (i + 1 - 1) ≤ lim := by simpa using htest
      have hget : mark[i]? = some (mark[i]) := List.getElem?_eq_getElem (by omega)
      cases hb : mark[i] with
      | true =>
        rw [hb] at hget
        have hnp : ¬ Nat.Prime i := (crossed_self hi).mp ((hinv i hile).mp hget)
        obtain ⟨mark1, h1, h2, h3⟩ := ih (i + 1) mark (by omega) hprev1 (by omega) hlen
          (fun x hx => by
            rw [hinv x hx, crossed_succ]
            constructor
            · exact Or.inl
            · rintro (h | ⟨h, -⟩)
              · exact h
              · exact absurd h hnp)
        refine ⟨mark1, ?_, h2, h3⟩
        simp only [sieveLoop, hmod, if_pos htest, hget, hmod1, h1]
      | false =>
        rw [hb] at hget
        have hp : Nat.Prime i := by
          by_contra hnp
          have := (hinv i hile).mpr ((crossed_self hi).mpr hnp)
          rw [hget] at this
          simp at this
        obtain ⟨mark2, m1, m2, m3⟩ := markMultiples_spec lim i (by omega)
          (by unfold limBound at hlim; unfold U32; omega) U32 (i * i) mark hlen
          (by unfold limBound at hlim; unfold U32; omega)
        obtain ⟨mark1, h1, h2, h3⟩ := ih (i + 1) mark2 (by omega) hprev1 (by omega) m2
          (fun x hx => by
            rw [m3 x, hinv x hx, crossed_succ]
            constructor
            · rintro (h | ⟨a, -, t, c⟩)
              · exact Or.inl h
              · refine Or.inr ⟨hp, ⟨i + t, ?_⟩, a⟩
                rw [c]; ring
            · rintro (h | ⟨-, ⟨c, hc⟩, hs⟩)
              · exact Or.inl h
              · refine Or.inr ⟨hs, hx, c - i, ?_⟩
                have hic : i ≤ c := by
                  rw [hc] at hs
                  exact Nat.le_of_mul_le_mul_left hs (by omega)
                rw [hc, Nat.sub_mul, Nat.mul_comm c i]
                have : i * i ≤ i * c := Nat.mul_le_mul_left i hic
                omega)
        refine ⟨mark1, ?_, h2, h3⟩
        simp only [sieveLoop, hmod, if_pos htest, hget, m1, hmod1, h1]
    · refine ⟨mark, ?_, hlen, ?_⟩
      · simp only [sieveLoop, hmod, if_neg htest]
      · intro x hx
        rw [hinv x hx]
        exact crossed_of_lt_sq (by omega)

/-- The collecting loop appends the unmarked indices from `i` to `lim`, in order. -/
theorem collectPrimes_spec (lim : Nat) (mark : List Bool) (hlen : mark.length = lim + 1)
    (hlim : lim + 1 < U32) :
    ∀ (fuel i : Nat) (acc : List Nat), lim + 1 - i < fuel →
      collectPrimes lim mark fuel i acc =
        some (acc ++ (List.range' i (lim + 1 - i)).filter (fun x => decide (mark[x]? = some false))) := by
  intro fuel
  induction fuel with
  | zero => intro i acc h; omega
  | succ fuel ih =>
    intro i acc hfuel
    by_cases hi : i ≤ lim
    · have hmod1 : (i + 1) % U32 = i + 1 := Nat.mod_eq_of_lt (by omega)
      have hget : mark[i]? = some (mark[i]) := List.getElem?_eq_getElem (by omega)
      have hrange : List.range' i (lim + 1 - i) = i :: List.range' (i + 1) (lim + 1 - (i + 1)) := by
        have : lim + 1 - i = (lim + 1 - (i + 1)) + 1 := by omega
        rw [this, List.range'_succ]
      cases hb : mark[i] with
      | true =>
        rw [hb] at hget
        simp only [collectPrimes, if_pos hi, hget, hmod1]
        rw [ih (i + 1) acc (by omega), hrange, List.filter_cons_of_neg (by simp [hget])]
      | false =>
        rw [hb] at hget
        simp only [collectPrimes, if_pos hi, hget, hmod1]
        rw [ih (i + 1) (acc ++ [i]) (by omega), hrange, List.filter_cons_of_pos (by simp [hget])]
        simp
    · have h0 : lim + 1 - i = 0 := by omega
      simp [collectPrimes, hi, h0]

/-- The constructor succeeds for every limit in `[1, limBound)` and leaves a
valid sieve. -/
theorem build_valid (lim : Nat) (h1 : 1 ≤ lim) (hlim : lim < limBound) :
    ∃ sv, Sieve.build lim = some sv ∧ sv.Valid lim := by
  have hU : lim + 1 < U32 := by unfold limBound at hlim; unfold U32; omega
  have hmod : (lim + 1) % U32 = lim + 1 := Nat.mod_eq_of_lt hU
  have hs1 : setMark (List.replicate (lim + 1) false) 1
      = some ((List.replicate (lim + 1) false).set 1 true) := setMark_eq (by simp; omega)
  have hs2 : setMark ((List.replicate (lim + 1) false).set 1 true) 0
      = some (((List.replicate (lim + 1) false).set 1 true).set 0 true) := setMark_eq (by simp)
  obtain ⟨mark3, l1, l2, l3⟩ := sieveLoop_spec lim hlim U32 2
    (((List.replicate (lim + 1) false).set 1 true).set 0 true) (le_refl 2) (by simpa using h1)
    (by omega) (by simp)
    (fun x hx => by
      rw [getElem?_set_true_iff (by simp), getElem?_set_true_iff (by simp; omega),
        List.getElem?_replicate]
      have hx1 : x < lim + 1 := by omega
      simp only [hx1, if_true]
      unfold Crossed
      constructor
      · rintro (h | h | h)
        · exact Or.inl (by omega)
        · exact Or.inl (by omega)
        · simp at h
      · rintro (h | ⟨p, hp, hpp, -⟩)
        · omega
        · have := hpp.two_le
          omega)
  have hc := collectPrimes_spec lim mark3 l2 hU U32 2 [] (by omega)
  refine ⟨Sieve.mk mark3 ([] ++ List.filter (fun x => decide (mark3[x]? = some false))
    (List.range' 2 (lim + 1 - 2))), ?_, ⟨l2, l3, ?_⟩⟩
  · simp only [Sieve.build, hmod, hs1, hs2, l1, hc]
  · have hr : lim + 1 - 2 = lim - 1 := by omega
    simp only [List.nil_append, hr]
    apply List.filter_congr
    intro x hx
    rw [List.mem_range'_1] at hx
    have hxl : x ≤ lim := by omega
    have hget : mark3[x]? = some (mark3[x]) := List.getElem?_eq_getElem (by omega)
    have h3 := l3 x hxl
    rw [hget] at h3 ⊢
    cases hb : mark3[x] with
    | true =>
      rw [hb] at h3
      have : ¬ Nat.Prime x := h3.mp rfl
      simp [this]
    | false =>
      rw [hb] at h3
      have : Nat.Prime x := by
        by_contra hnp
        have := h3.mpr hnp
        simp at this
      simp [this]

/-! ## Theorems: consequences of a valid sieve -/

theorem Sieve.Valid.isPrimeSmall {sv : Sieve} {lim : Nat} (hv : sv.Valid lim) {x : Nat}
    (hx : x ≤ lim) : ∃ b, sv.isPrimeSmall x = some b ∧ (b = true ↔ Nat.Prime x) := by
  have hlt : x < sv.mark.length := by rw [hv.length_mark]; omega
  have hget : sv.mark[x]? = some (sv.mark[x]) := List.getElem?_eq_getElem hlt
  have h3 := hv.mark_iff x hx
  rw [hget] at h3
  refine ⟨!sv.mark[x], by simp [Sieve.isPrimeSmall, hget], ?_⟩
  cases hb : sv.mark[x] with
  | true =>
    rw [hb] at h3
    have : ¬ Nat.Prime x := h3.mp rfl
    simp [this]
  | false =>
    rw [hb] at h3
    have : Nat.Prime x := by
      by_contra hnp
      have := h3.mpr hnp
      simp at this
    simp [this]

theorem Sieve.Valid.mem_primes {sv : Sieve} {lim : Nat} (hv : sv.Valid lim) (v : Nat) :
    v ∈ sv.primes ↔ (2 ≤ v ∧ v ≤ lim ∧ Nat.Prime v) := by
  rw [hv.primes_eq, List.mem_filter, List.mem_range'_1]
  constructor
  · rintro ⟨⟨a, b⟩, c⟩
    exact ⟨a, by omega, by simpa using c⟩
  · rintro ⟨a, b, c⟩
    exact ⟨⟨a, by omega⟩, by simpa using c⟩

theorem Sieve.Valid.sorted {sv : Sieve} {lim : Nat} (hv : sv.Valid lim) :
    sv.primes.Pairwise (fun a b => a < b) := by
  rw [hv.primes_eq]
  exact (List.pairwise_lt_range' 2 (lim - 1)).filter _

theorem filter_range_head (P : Nat → Bool) :
    ∀ (n s y : Nat), y ∈ ((List.range' s n).filter P).head? →
      s ≤ y ∧ ∀ c, s ≤ c → c < y → P c = false := by
  intro n
  induction n with
  | zero => intro s y h; simp at h
  | succ n ih =>
    intro s y h
    rw [List.range'_succ] at h
    cases hP : P s with
    | true =>
      rw [List.filter_cons_of_pos hP] at h
      simp only [List.head?_cons, Option.mem_def, Option.some.injEq] at h
      subst h
      exact ⟨le_refl _, fun c h1 h2 => by omega⟩
    | false =>
      rw [List.filter_cons_of_neg (by simp [hP])] at h
      obtain ⟨a, b⟩ := ih (s + 1) y h
      refine ⟨by omega, fun c h1 h2 => ?_⟩
      rcases Nat.eq_or_lt_of_le h1 with rfl | h3
      · exact hP
      · exact b c h3 h2

/-- Neighbours in a filtered range: both satisfy the filter and nothing between
them does. -/
theorem filter_range_chain (P : Nat → Bool) :
    ∀ (n s : Nat), List.Chain' (fun a b => P a = true ∧ a < b ∧ ∀ c, a < c → c < b → P c = false)
      ((List.range' s n).filter P) := by
  intro n
  induction n with
  | zero => intro s; simp
  | succ n ih =>
    intro s
    rw [List.range'_succ]
    cases hP : P s with
    | true =>
      rw [List.filter_cons_of_pos hP, List.chain'_cons']
      refine ⟨fun y hy => ?_, ih (s + 1)⟩
      obtain ⟨a, b⟩ := filter_range_head P n (s + 1) y hy
      exact ⟨hP, by omega, fun c h1 h2 => b c h1 h2⟩
    | false =>
      rw [List.filter_cons_of_neg (by simp [hP])]
      exact ih (s + 1)

/-- Neighbours in the prime sequence are less than a factor two apart
(Bertrand's postulate). -/
theorem Sieve.Valid.chain {sv : Sieve} {lim : Nat} (hv : sv.Valid lim) :
    List.Chain' (fun a b => a < b ∧ b ≤ 2 * a) sv.primes := by
  rw [hv.primes_eq]
  refine (filter_range_chain (fun x => decide (Nat.Prime x)) (lim - 1) 2).imp ?_
  rintro a b ⟨ha, hab, hnone⟩
  refine ⟨hab, ?_⟩
  have hpa : Nat.Prime a := by simpa using ha
  obtain ⟨c, hc, h1, h2⟩ := Nat.exists_prime_lt_and_le_two_mul a hpa.pos.ne'
  by_contra hlt
  have := hnone c h1 (by omega)
  simp [hc] at this

theorem Sieve.Valid.primes_head {sv : Sieve} {lim : Nat} (hv : sv.Valid lim) :
    sv.primes = [] ∨ ∃ rest, sv.primes = 2 :: rest := by
  rw [hv.primes_eq]
  rcases Nat.eq_zero_or_pos (lim - 1) with h | h
  · left; simp [h]
  · right
    obtain ⟨k, hk⟩ : ∃ k, lim - 1 = k + 1 := ⟨lim - 2, by omega⟩
    rw [hk, List.range'_succ, List.filter_cons_of_pos (by simp [Nat.prime_two])]
    exact ⟨_, rfl⟩

theorem Sieve.Valid.lt_U32 {sv : Sieve} {lim : Nat} (hv : sv.Valid lim) (hlim : lim < limBound)
    {v : Nat} (h : v ∈ sv.primes) : v < U32 := by
  have := ((hv.mem_primes v).mp h).2.1
  unfold limBound at hlim; unfold U32; omega

/-! ## Theorems: the cube and the search -/

theorem cube_lt_U64 {n : Nat} (hn : n ≤ 2642245) : n ^ 3 < U64 := by
  have h : n ^ 3 ≤ 2642245 ^ 3 := Nat.pow_le_pow_left hn 3
  unfold U64
  have : (2642245 : Nat) ^ 3 < 2 ^ 64 := by norm_num
  omega

theorem cube64_eq {n : Nat} (hn : n ≤ 2642245) : cube64 n = n ^ 3 := by
  have h3 := cube_lt_U64 hn
  have h64 : U64 < U128 := by unfold U64 U128; norm_num
  have hnn : n * n * n = n ^ 3 := by ring
  have h2 : n * n ≤ n ^ 3 := by
    rcases Nat.eq_zero_or_pos n with h | h
    · subst h; simp
    · rw [← hnn]; exact Nat.le_mul_of_pos_right _ h
  unfold cube64
  rw [Nat.mod_eq_of_lt (by omega : n * n < U128), hnn, Nat.mod_eq_of_lt (by omega : n ^ 3 < U128),
    Nat.mod_eq_of_lt h3]

theorem sub64_eq {a b : Nat} (hb : b ≤ a) (ha : a < U64) : sub64 a b = a - b := by
  unfold sub64
  rw [Nat.mod_eq_of_lt (by omega : b < U64)]
  have : a + U64 - b = (a - b) + U64 := by omega
  rw [this, Nat.add_mod_right, Nat.mod_eq_of_lt (by omega)]

/-- A match of the inner loop of phase 1: no subtraction wrapped, so the three
numbers add up to `m`, and the acceptance test holds. -/
theorem phase1Inner_sound (sv : Sieve) (m p : Nat) (hm : m < U64) :
    ∀ (L : List Nat) (q r : Nat), List.Chain' (fun a b => a < b ∧ b ≤ 2 * a) L →
      (∀ y ∈ L.head?, p + y ≤ m) → phase1Inner sv m p L = some (some (q, r)) →
      q ∈ L ∧ p + q + r = m ∧ q ≤ r ∧ r ≠ p ∧ r ≠ q ∧ isPrime64 r sv = some true := by
  intro L
  induction L with
  | nil => intro q r _ _ h; simp [phase1Inner] at h
  | cons q0 rest ih =>
    intro q r hchain hhead h
    have hq0 : p + q0 ≤ m := hhead q0 (by simp)
    have hsub : sub64 (sub64 m p) q0 = m - p - q0 := by
      rw [sub64_eq (by omega) hm, sub64_eq (by omega) (by omega)]
    rw [phase1Inner, hsub] at h
    by_cases hbreak : m - p - q0 < q0
    · simp [hbreak] at h
    · rw [if_neg hbreak] at h
      cases hprime : isPrime64 (m - p - q0) sv with
      | none => simp [hprime] at h
      | some b =>
        simp only [hprime] at h
        by_cases hacc : (b && m - p - q0 != p && m - p - q0 != q0) = true
        · rw [if_pos hacc] at h
          simp only [Option.some.injEq, Prod.mk.injEq] at h
          obtain ⟨rfl, rfl⟩ := h
          simp only [Bool.and_eq_true, bne_iff_ne, ne_eq] at hacc
          obtain ⟨⟨hb, h1⟩, h2⟩ := hacc
          subst hb
          exact ⟨by simp, by omega, by omega, h1, h2, hprime⟩
        · rw [if_neg hacc] at h
          rw [List.chain'_cons'] at hchain
          obtain ⟨a1, a2, a3, a4, a5, a6⟩ := ih q r hchain.2
            (fun y hy => by have := hchain.1 y hy; omega) h
          exact ⟨List.mem_cons_of_mem _ a1, a2, a3, a4, a5, a6⟩

/-- A match of phase 1. -/
theorem phase1_sound (sv : Sieve) (m : Nat) (hm : m < U64) :
    ∀ (L : List Nat) (p q r : Nat), List.Chain' (fun a b => a < b ∧ b ≤ 2 * a) L →
      List.Pairwise (fun a b => a < b) L → (∀ v ∈ L, v < U32) →
      phase1 sv m L = some (some (p, q, r)) →
      p ∈ L ∧ q ∈ L ∧ p < q ∧ q < r ∧ p + q + r = m ∧ isPrime64 r sv = some true := by
  intro L
  induction L with
  | nil => intro p q r _ _ _ h; simp [phase1] at h
  | cons p0 rest ih =>
    intro p q r hchain hsorted hsmall h
    have hp0 : p0 < U32 := hsmall p0 (by simp)
    have hmod : (p0 * 3) % U128 = p0 * 3 :=
      Nat.mod_eq_of_lt (by unfold U32 at hp0; unfold U128; omega)
    rw [phase1, hmod] at h
    by_cases hbig : p0 * 3 > m
    · simp [hbig] at h
    · rw [if_neg hbig] at h
      rw [List.chain'_cons'] at hchain
      rw [List.pairwise_cons] at hsorted
      cases hin : phase1Inner sv m p0 rest with
      | none => simp [hin] at h
      | some o =>
        cases o with
        | none =>
          simp only [hin] at h
          obtain ⟨a1, a2, a3⟩ := ih p q r hchain.2 hsorted.2
            (fun v hv => hsmall v (List.mem_cons_of_mem _ hv)) h
          exact ⟨List.mem_cons_of_mem _ a1, List.mem_cons_of_mem _ a2, a3⟩
        | some qr =>
          obtain ⟨q1, r1⟩ := qr
          simp only [hin, Option.some.injEq, Prod.mk.injEq] at h
          obtain ⟨rfl, rfl, rfl⟩ := h
          obtain ⟨b1, b2, b3, b4, b5, b6⟩ := phase1Inner_sound sv m p0 hm rest q1 r1 hchain.2
            (fun y hy => by have := hchain.1 y hy; omega) hin
          have hlt : p0 < q1 := hsorted.1 q1 b1
          exact ⟨by simp, List.mem_cons_of_mem _ b1, hlt, by omega, b2, b6⟩

/-- A match of phase 0. -/
theorem phase0_sound (sv : Sieve) (m : Nat) (hm : m < U64) :
    ∀ (L : List Nat) (p q : Nat), List.Chain' (fun a b => a < b ∧ b ≤ 2 * a) L →
      (∀ y ∈ L.head?, y + 2 ≤ m) → phase0 sv m L = some (some (p, q)) →
      p ∈ L ∧ p ≠ 2 ∧ q ≠ 2 ∧ p < q ∧ 2 + p + q = m ∧ isPrime64 q sv = some true := by
  intro L
  induction L with
  | nil => intro p q _ _ h; simp [phase0] at h
  | cons p0 rest ih =>
    intro p q hchain hhead h
    have hp0 : p0 + 2 ≤ m := hhead p0 (by simp)
    have hsub : sub64 (sub64 m 2) p0 = m - 2 - p0 := by
      rw [sub64_eq (by omega) hm, sub64_eq (by omega) (by omega)]
    rw [phase0, hsub] at h
    by_cases hge : p0 ≥ m
    · simp [hge] at h
    · rw [if_neg hge] at h
      by_cases hbreak : m - 2 - p0 ≤ p0
      · simp [hbreak] at h
      · rw [if_neg hbreak] at h
        cases hprime : isPrime64 (m - 2 - p0) sv with
        | none => simp [hprime] at h
        | some b =>
          simp only [hprime] at h
          by_cases hacc : (b && m - 2 - p0 != 2 && p0 != 2) = true
          · rw [if_pos hacc] at h
            simp only [Option.some.injEq, Prod.mk.injEq] at h
            obtain ⟨rfl, rfl⟩ := h
            simp only [Bool.and_eq_true, bne_iff_ne, ne_eq] at hacc
            obtain ⟨⟨hb, h1⟩, h2⟩ := hacc
            subst hb
            exact ⟨by simp, h2, h1, by omega, by omega, hprime⟩
          · rw [if_neg hacc] at h
            rw [List.chain'_cons'] at hchain
            obtain ⟨a1, a2⟩ := ih p q hchain.2
              (fun y hy => by have := hchain.1 y hy; omega) h
            exact ⟨List.mem_cons_of_mem _ a1, a2⟩

/-- What phase 0 accepts, whatever the prime sequence is. -/
theorem phase0_shape (sv : Sieve) (m : Nat) :
    ∀ (L : List Nat) (p q : Nat), phase0 sv m L = some (some (p, q)) →
      p ≠ 2 ∧ q ≠ 2 ∧ p < q := by
  intro L
  induction L with
  | nil => intro p q h; simp [phase0] at h
  | cons p0 rest ih =>
    intro p q h
    rw [phase0] at h
    by_cases hge : p0 ≥ m
    · simp [hge] at h
    · rw [if_neg hge] at h
      by_cases hbreak : sub64 (sub64 m 2) p0 ≤ p0
      · simp [hbreak] at h
      · rw [if_neg hbreak] at h
        cases hprime : isPrime64 (sub64 (sub64 m 2) p0) sv with
        | none => simp [hprime] at h
        | some b =>
          simp only [hprime] at h
          by_cases hacc : (b && sub64 (sub64 m 2) p0 != 2 && p0 != 2) = true
          · rw [if_pos hacc] at h
            simp only [Option.some.injEq, Prod.mk.injEq] at h
            obtain ⟨rfl, rfl⟩ := h
            simp only [Bool.and_eq_true, bne_iff_ne, ne_eq] at hacc
            exact ⟨hacc.2, hacc.1.2, by omega⟩
          · rw [if_neg hacc] at h
            exact ih p q h

theorem searchCube_even_iff (sv : Sieve) (m p q : Nat) :
    searchCube sv m = some (Found.even p q) ↔
      (m % 2 = 0 ∧ phase0 sv m sv.primes = some (some (p, q))) := by
  unfold searchCube
  by_cases hm : m % 2 = 0
  · simp only [if_pos hm]
    cases h0 : phase0 sv m sv.primes with
    | none => simp
    | some o =>
      cases o with
      | some pq => obtain ⟨p1, q1⟩ := pq; simp [hm]
      | none =>
        simp only
        cases h1 : phase1 sv m sv.primes with
        | none => simp
        | some o1 =>
          cases o1 with
          | none => simp
          | some t => obtain ⟨a, b, c⟩ := t; simp
  · simp only [if_neg hm]
    cases h1 : phase1 sv m sv.primes with
    | none => simp [hm]
    | some o1 =>
      cases o1 with
      | none => simp [hm]
      | some t => obtain ⟨a, b, c⟩ := t; simp [hm]

theorem searchCube_triple_iff (sv : Sieve) (m p q r : Nat) :
    searchCube sv m = some (Found.triple p q r) ↔
      ((if m % 2 = 0 then phase0 sv m sv.primes else some none) = some none ∧
        phase1 sv m sv.primes = some (some (p, q, r))) := by
  unfold searchCube
  cases h0 : (if m % 2 = 0 then phase0 sv m sv.primes else some none) with
  | none => simp
  | some o =>
    cases o with
    | some pq => obtain ⟨p1, q1⟩ := pq; simp
    | none =>
      simp only
      cases h1 : phase1 sv m sv.primes with
      | none => simp
      | some o1 =>
        cases o1 with
        | none => simp
        | some t => obtain ⟨a, b, c⟩ := t; simp

/-- A reported `2 + p + q`, for a valid sieve. -/
theorem searchCube_even_sound {sv : Sieve} {lim m p q : Nat} (hv : sv.Valid lim)
    (hm : m < U64) (h4 : 4 ≤ m) (h : searchCube sv m = some (Found.even p q)) :
    p ∈ sv.primes ∧ p ≠ 2 ∧ q ≠ 2 ∧ p < q ∧ 2 + p + q = m ∧ isPrime64 q sv = some true := by
  rw [searchCube_even_iff] at h
  refine phase0_sound sv m hm sv.primes p q hv.chain ?_ h.2
  intro y hy
  rcases hv.primes_head with h0 | ⟨rest, h0⟩
  · rw [h0] at hy; simp at hy
  · rw [h0] at hy
    simp only [List.head?_cons, Option.mem_def, Option.some.injEq] at hy
    omega

/-- A reported `p + q + r`, for a valid sieve. -/
theorem searchCube_triple_sound {sv : Sieve} {lim m p q r : Nat} (hv : sv.Valid lim)
    (hlim : lim < limBound) (hm : m < U64) (h : searchCube sv m = some (Found.triple p q r)) :
    p ∈ sv.primes ∧ q ∈ sv.primes ∧ p < q ∧ q < r ∧ p + q + r = m ∧
      isPrime64 r sv = some true := by
  rw [searchCube_triple_iff] at h
  exact phase1_sound sv m hm sv.primes p q r hv.chain hv.sorted
    (fun v hmem => hv.lt_U32 hlim hmem) h.2

theorem valid_of_build {lim : Nat} {sv : Sieve} (h1 : 1 ≤ lim) (hlim : lim < limBound)
    (hsv : Sieve.build lim = some sv) : sv.Valid lim := by
  obtain ⟨sv1, a, b⟩ := build_valid lim h1 hlim
  rw [a] at hsv
  simp only [Option.some.injEq] at hsv
  rw [← hsv]; exact b

/-! ## Theorems: the loops of the oracle reach their exit -/

theorem powLoop_isSome (m : Nat) :
    ∀ (fuel a e r : Nat), e < 2 ^ fuel → ∃ v, powLoop m (fuel + 1) a e r = some v := by
  intro fuel
  induction fuel with
  | zero =>
    intro a e r h
    have : e = 0 := by simpa using h
    exact ⟨r, by simp [powLoop, this]⟩
  | succ fuel ih =>
    intro a e r h
    by_cases he : e = 0
    · exact ⟨r, by simp [powLoop, he]⟩
    · have h2 : e / 2 < 2 ^ fuel := by
        rw [Nat.div_lt_iff_lt_mul (by norm_num)]
        rw [pow_succ] at h
        exact h
      obtain ⟨v, hv⟩ := ih (mul_mod a a m) (e / 2) (if e % 2 = 1 then mul_mod r a m else r) h2
      refine ⟨v, ?_⟩
      rw [powLoop, if_neg he]
      exact hv

theorem pow_mod_isSome (a e m : Nat) (he : e < U64) : ∃ v, pow_mod a e m = some v :=
  powLoop_isSome m 64 a e 1 he

theorem splitTwos_isSome :
    ∀ (fuel d r : Nat), 0 < d → d < 2 ^ fuel →
      ∃ d1 r1, splitTwos fuel d r = some (d1, r1) ∧ d1 ≤ d := by
  intro fuel
  induction fuel with
  | zero => intro d r h0 h; simp at h; omega
  | succ fuel ih =>
    intro d r h0 h
    by_cases hd : d % 2 = 0
    · have h2 : d / 2 < 2 ^ fuel := by
        rw [Nat.div_lt_iff_lt_mul (by norm_num)]
        rw [pow_succ] at h
        exact h
      obtain ⟨d1, r1, a, b⟩ := ih (d / 2) ((r + 1) % U64) (by omega) h2
      refine ⟨d1, r1, ?_, by omega⟩
      rw [splitTwos, if_pos hd]
      exact a
    · exact ⟨d, r, by rw [splitTwos, if_neg hd], le_refl _⟩

theorem basesLoop_isSome (n d r : Nat) (hd : d < U64) :
    ∀ L : List Nat, ∃ b, basesLoop n d r L = some b := by
  intro L
  induction L with
  | nil => exact ⟨true, rfl⟩
  | cons a rest ih =>
    obtain ⟨b, hb⟩ := ih
    obtain ⟨x, hx⟩ := pow_mod_isSome a d n hd
    rw [basesLoop, hx]
    by_cases h1 : a ≥ n
    · exact ⟨true, by simp [h1]⟩
    · rw [if_neg h1]
      by_cases h2 : x = 1 ∨ x = n - 1
      · exact ⟨b, by simp only [if_pos h2, hb]⟩
      · by_cases h3 : squareLoop n (r - 1) x = true
        · exact ⟨false, by simp only [if_neg h2, h3, if_true]⟩
        · exact ⟨b, by simp only [if_neg h2, h3, hb]; simp⟩

/-- The oracle returns a verdict for every 64-bit `x` as soon as the marker
array covers the indices up to `10'000'000`. -/
theorem isPrime64_isSome (sv : Sieve) (x : Nat) (hlen : 10000000 < sv.mark.length)
    (hx : x < U64) : ∃ b, isPrime64 x sv = some b := by
  unfold isPrime64
  by_cases hsmall : x ≤ 10000000
  · have hmod : x % U32 = x := Nat.mod_eq_of_lt (by unfold U32; omega)
    have hlt : x < sv.mark.length := by omega
    have hget : sv.mark[x]? = some (sv.mark[x]) := List.getElem?_eq_getElem hlt
    exact ⟨!sv.mark[x], by simp [hsmall, hmod, Sieve.isPrimeSmall, hget]⟩
  · rw [if_neg hsmall]
    by_cases heven : x % 2 = 0
    · exact ⟨false, by simp [heven]⟩
    · rw [if_neg heven]
      obtain ⟨d1, r1, a, b⟩ := splitTwos_isSome 64 (x - 1) 0 (by omega) (by unfold U64 at hx; omega)
      obtain ⟨v, hv⟩ := basesLoop_isSome x d1 r1 (by omega) bases
      exact ⟨v, by simp only [a, hv]⟩

theorem sub64_lt (a b : Nat) : sub64 a b < U64 :=
  Nat.mod_lt _ (by unfold U64; norm_num)

theorem phase0_isSome (sv : Sieve) (m : Nat) (hlen : 10000000 < sv.mark.length) :
    ∀ L : List Nat, ∃ o, phase0 sv m L = some o := by
  intro L
  induction L with
  | nil => exact ⟨none, rfl⟩
  | cons p rest ih =>
    obtain ⟨o, ho⟩ := ih
    obtain ⟨b, hb⟩ := isPrime64_isSome sv (sub64 (sub64 m 2) p) hlen (sub64_lt _ _)
    rw [phase0, hb, ho]
    by_cases h1 : p ≥ m
    · exact ⟨none, by simp [h1]⟩
    · by_cases h2 : sub64 (sub64 m 2) p ≤ p
      · exact ⟨none, by simp [h1, h2]⟩
      · by_cases h3 : (b && sub64 (sub64 m 2) p != 2 && p != 2) = true
        · exact ⟨some (p, sub64 (sub64 m 2) p), by simp only [if_neg h1, if_neg h2, if_pos h3]⟩
        · exact ⟨o, by simp only [if_neg h1, if_neg h2, if_neg h3]⟩

theorem phase1Inner_isSome (sv : Sieve) (m p : Nat) (hlen : 10000000 < sv.mark.length) :
    ∀ L : List Nat, ∃ o, phase1Inner sv m p L = some o := by
  intro L
  induction L with
  | nil => exact ⟨none, rfl⟩
  | cons q rest ih =>
    obtain ⟨o, ho⟩ := ih
    obtain ⟨b, hb⟩ := isPrime64_isSome sv (sub64 (sub64 m p) q) hlen (sub64_lt _ _)
    rw [phase1Inner, hb, ho]
    by_cases h2 : sub64 (sub64 m p) q < q
    · exact ⟨none, by simp [h2]⟩
    · by_cases h3 : (b && sub64 (sub64 m p) q != p && sub64 (sub64 m p) q != q) = true
      · exact ⟨some (q, sub64 (sub64 m p) q), by simp only [if_neg h2, if_pos h3]⟩
      · exact ⟨o, by simp only [if_neg h2, if_neg h3]⟩

theorem phase1_isSome (sv : Sieve) (m : Nat) (hlen : 10000000 < sv.mark.length) :
    ∀ L : List Nat, ∃ o, phase1 sv m L = some o := by
  intro L
  induction L with
  | nil => exact ⟨none, rfl⟩
  | cons p rest ih =>
    obtain ⟨o, ho⟩ := ih
    obtain ⟨o1, ho1⟩ := phase1Inner_isSome sv m p hlen rest
    rw [phase1, ho1, ho]
    by_cases h1 : (p * 3) % U128 > m
    · exact ⟨none, by simp [h1]⟩
    · rw [if_neg h1]
      cases o1 with
      | none => exact ⟨o, rfl⟩
      | some qr => exact ⟨some (p, qr.1, qr.2), rfl⟩

/-- The search never runs into undefined behaviour once the marker array covers
the indices up to `10'000'000`. -/
theorem searchCube_isSome (sv : Sieve) (m : Nat) (hlen : 10000000 < sv.mark.length) :
    ∃ f, searchCube sv m = some f := by
  obtain ⟨o0, h0⟩ := phase0_isSome sv m hlen sv.primes
  obtain ⟨o1, h1⟩ := phase1_isSome sv m hlen sv.primes
  unfold searchCube
  rw [h0, h1]
  by_cases hm : m % 2 = 0
  · rw [if_pos hm]
    cases o0 with
    | some pq => exact ⟨Found.even pq.1 pq.2, rfl⟩
    | none =>
      cases o1 with
      | none => exact ⟨Found.nothing, rfl⟩
      | some t => exact ⟨Found.triple t.1 t.2.1 t.2.2, rfl⟩
  · rw [if_neg hm]
    cases o1 with
    | none => exact ⟨Found.nothing, rfl⟩
    | some t => exact ⟨Found.triple t.1 t.2.1 t.2.2, rfl⟩

/-! ## Theorems: the scenario `n = 3` -/

theorem isPrime64_small {sv : Sieve} {lim x : Nat} (hv : sv.Valid lim) (hx : x ≤ 10000000)
    (hxl : x ≤ lim) : isPrime64 x sv = some (decide (Nat.Prime x)) := by
  have hmod : x % U32 = x := Nat.mod_eq_of_lt (by unfold U32; omega)
  obtain ⟨b, h1, h2⟩ := hv.isPrimeSmall hxl
  unfold isPrime64
  rw [if_pos hx, hmod, h1]
  congr 1
  cases b with
  | true => simp [h2.mp rfl]
  | false =>
    have : ¬ Nat.Prime x := fun h => by simpa using h2.mpr h
    simp [this]

theorem Sieve.Valid.primes_start {sv : Sieve} {lim : Nat} (hv : sv.Valid lim) (h13 : 13 ≤ lim) :
    ∃ tail, sv.primes = 2 :: 3 :: 5 :: 7 :: 11 :: 13 :: tail := by
  have hsplit : List.range' 2 (lim - 1) = List.range' 2 12 ++ List.range' 14 (lim - 13) := by
    rw [List.range'_append_1]
    congr 1
    omega
  refine ⟨(List.range' 14 (lim - 13)).filter (fun x => decide (Nat.Prime x)), ?_⟩
  rw [hv.primes_eq, hsplit, List.filter_append]
  have : (List.range' 2 12).filter (fun x => decide (Nat.Prime x)) = [2, 3, 5, 7, 11, 13] := by
    norm_num [List.range', List.filter]
  rw [this]
  rfl

theorem scenario_three {sv : Sieve} {lim : Nat} (hv : sv.Valid lim) (h22 : 22 ≤ lim) :
    ∃ tail, sv.primes = 2 :: 3 :: 5 :: tail ∧
      phase1Inner sv 27 2 (3 :: 5 :: tail) = some none ∧
      phase1Inner sv 27 3 (5 :: tail) = some (some (5, 19)) ∧
      searchCube sv 27 = some (Found.triple 3 5 19) := by
  obtain ⟨tail, ht⟩ := hv.primes_start (by omega)
  have e1 : sub64 (sub64 27 2) 3 = 22 := by decide
  have e2 : sub64 (sub64 27 2) 5 = 20 := by decide
  have e3 : sub64 (sub64 27 2) 7 = 18 := by decide
  have e4 : sub64 (sub64 27 2) 11 = 14 := by decide
  have e5 : sub64 (sub64 27 2) 13 = 12 := by decide
  have e6 : sub64 (sub64 27 3) 5 = 19 := by decide
  have p22 : isPrime64 22 sv = some false := by
    rw [isPrime64_small hv (by norm_num) (by omega)]; norm_num
  have p20 : isPrime64 20 sv = some false := by
    rw [isPrime64_small hv (by norm_num) (by omega)]; norm_num
  have p18 : isPrime64 18 sv = some false := by
    rw [isPrime64_small hv (by norm_num) (by omega)]; norm_num
  have p14 : isPrime64 14 sv = some false := by
    rw [isPrime64_small hv (by norm_num) (by omega)]; norm_num
  have p19 : isPrime64 19 sv = some true := by
    rw [isPrime64_small hv (by norm_num) (by omega)]; norm_num
  have hin2 : phase1Inner sv 27 2 (3 :: 5 :: 7 :: 11 :: 13 :: tail) = some none := by
    simp [phase1Inner, e1, e2, e3, e4, e5, p22, p20, p18, p14]
  have hin3 : phase1Inner sv 27 3 (5 :: 7 :: 11 :: 13 :: tail) = some (some (5, 19)) := by
    simp [phase1Inner, e6, p19]
  have hm2 : (2 * 3) % U128 = 6 := by decide
  have hm3 : (3 * 3) % U128 = 9 := by decide
  refine ⟨7 :: 11 :: 13 :: tail, ht, hin2, hin3, ?_⟩
  rw [searchCube_triple_iff, ht]
  refine ⟨by simp, ?_⟩
  simp [phase1, hm2, hm3, hin2, hin3]

/-! ## Theorems: the test vector -/

theorem build_sieve60 : Sieve.build 60 = some sieve60 := by decide

theorem searchCube_sieve60_three : searchCube sieve60 (cube64 3) = some (Found.triple 3 5 19) := by
  decide

theorem searchCube_sieve60_four : searchCube sieve60 (cube64 4) = some (Found.even 3 59) := by
  decide

theorem render_even (n m p q : Nat) :
    render n m (Found.even p q) =
      (true, toString n ++ "^3 = " ++ toString m ++ " = " ++
        toString 2 ++ " + " ++ toString p ++ " + " ++ toString q) := by
  have h2 : " = 2 + " = " = " ++ toString 2 ++ " + " := by decide
  simp only [render, Prod.mk.injEq, true_and]
  rw [h2]
  simp only [String.append_assoc]

/-! ## The claims -/

/-- C1: for a sieve built by the constructor and `3 ≤ n ≤ 2642245`, when
`cube_repr` returns `true` its line shows three addends `a`, `b`, `c` (`2, p, q`
from the even-cube phase or `p, q, r` from the double loop) that are pairwise
different and whose sum, over the natural numbers, is `n ^ 3`. -/
theorem cube_repr_distinct_sum (lim n : Nat) (sv : Sieve) (line : String)
    (h1 : 1 ≤ lim) (hlim : lim < limBound) (hsv : Sieve.build lim = some sv)
    (hn3 : 3 ≤ n) (hn : n ≤ 2642245) (hrep : cube_repr n sv = some (true, line)) :
    ∃ a b c, ((a = 2 ∧ searchCube sv (cube64 n) = some (Found.even b c)) ∨
        searchCube sv (cube64 n) = some (Found.triple a b c)) ∧
      line = lineFound n a b c ∧ a ≠ b ∧ a ≠ c ∧ b ≠ c ∧ a + b + c = n ^ 3 := by
  have hv := valid_of_build h1 hlim hsv
  have hc := cube64_eq hn
  have hm := cube_lt_U64 hn
  have h27 : 3 ^ 3 ≤ n ^ 3 := Nat.pow_le_pow_left hn3 3
  rw [hc]
  unfold cube_repr at hrep
  rw [hc] at hrep
  cases hs : searchCube sv (n ^ 3) with
  | none => simp [hs] at hrep
  | some f =>
    simp only [hs, Option.some.injEq] at hrep
    cases f with
    | even p q =>
      rw [render_even] at hrep
      simp only [Prod.mk.injEq, true_and] at hrep
      obtain ⟨a1, a2, a3, a4, a5, -⟩ := searchCube_even_sound hv hm (by omega) hs
      exact ⟨2, p, q, Or.inl ⟨rfl, rfl⟩, hrep.symm, fun h => a2 h.symm, fun h => a3 h.symm,
        by omega, a5⟩
    | triple p q r =>
      simp only [render, Prod.mk.injEq, true_and] at hrep
      obtain ⟨a1, a2, a3, a4, a5, -⟩ := searchCube_triple_sound hv hlim hm hs
      exact ⟨p, q, r, Or.inr rfl, hrep.symm, by omega, by omega, by omega, a5⟩
    | nothing => simp [render] at hrep

/-- Witness of C1 on the sieve of limit 60, at `n = 3`. -/
theorem cube_repr_distinct_sum_witness :
    Sieve.build 60 = some sieve60 ∧ cube_repr 3 sieve60 = some (true, "3^3 = 27 = 3 + 5 + 19") ∧
    ∃ a b c, ((a = 2 ∧ searchCube sieve60 (cube64 3) = some (Found.even b c)) ∨
        searchCube sieve60 (cube64 3) = some (Found.triple a b c)) ∧
      "3^3 = 27 = 3 + 5 + 19" = lineFound 3 a b c ∧ a ≠ b ∧ a ≠ c ∧ b ≠ c ∧ a + b + c = 3 ^ 3 :=
  ⟨build_sieve60, by decide,
    cube_repr_distinct_sum 60 3 sieve60 "3^3 = 27 = 3 + 5 + 19" (by decide) (by decide)
      build_sieve60 (by decide) (by decide) (by decide)⟩

/-- C3 (the code departs from it): `isPrime64` accepts the 64-bit number
`341550071728321 = 10670053 * 32010157`, which passes the strong test to every
base in `{2, 3, 5, 7, 11, 13, 17}` and is not prime. -/
theorem isPrime64_accepts_composite :
    (∀ sv : Sieve, isPrime64 341550071728321 sv = some true) ∧
      341550071728321 < U64 ∧ ¬ Nat.Prime 341550071728321 := by
  refine ⟨fun sv => rfl, by decide, ?_⟩
  exact @Nat.not_prime_mul' 10670053 32010157 341550071728321 (by norm_num) (by norm_num)
    (by norm_num)

/-- C4: for a sieve constructed with a limit `lim` in the range where no 32-bit
operation of the constructor wraps (`1 ≤ lim < 65535²`, which contains
`100000000`), `isPrimeSmall(x)` is `true` exactly for the primes `x ≤ lim`, and
`mark[x]` is `0` exactly for them. -/
theorem sieve_membership_exact (lim x : Nat) (h1 : 1 ≤ lim) (hlim : lim < limBound)
    (hx : x ≤ lim) :
    ∃ sv, Sieve.build lim = some sv ∧
      (sv.isPrimeSmall x = some true ↔ Nat.Prime x) ∧
      (sv.isPrimeSmall x = some false ↔ ¬ Nat.Prime x) ∧
      (sv.mark[x]? = some false ↔ Nat.Prime x) ∧
      (sv.mark[x]? = some true ↔ ¬ Nat.Prime x) := by
  obtain ⟨sv, hsv, hv⟩ := build_valid lim h1 hlim
  have hlt : x < sv.mark.length := by rw [hv.length_mark]; omega
  have hget : sv.mark[x]? = some (sv.mark[x]) := List.getElem?_eq_getElem hlt
  have h3 := hv.mark_iff x hx
  refine ⟨sv, hsv, ?_⟩
  unfold Sieve.isPrimeSmall
  rw [hget] at h3 ⊢
  cases hb : sv.mark[x] with
  | true =>
    rw [hb] at h3
    have : ¬ Nat.Prime x := h3.mp rfl
    simp [this]
  | false =>
    rw [hb] at h3
    have : Nat.Prime x := by
      by_contra hnp
      have := h3.mpr hnp
      simp at this
    simp [this]

/-- Witness of C4 at the program's limit `100000000` and `x = 97`. -/
theorem sieve_membership_exact_witness :
    ∃ sv, Sieve.build 100000000 = some sv ∧
      (sv.isPrimeSmall 97 = some true ↔ Nat.Prime 97) ∧
      (sv.isPrimeSmall 97 = some false ↔ ¬ Nat.Prime 97) ∧
      (sv.mark[97]? = some false ↔ Nat.Prime 97) ∧
      (sv.mark[97]? = some true ↔ ¬ Nat.Prime 97) :=
  sieve_membership_exact 100000000 97 (by decide) (by decide) (by decide)

/-- C5: after `Sieve(lim)`, for `1 ≤ lim < 65535²`, the vector `primes` is
strictly ascending, has no duplicates, and contains `v` exactly when
`2 ≤ v ≤ lim` and `v` is prime. -/
theorem sieve_primes_exact (lim : Nat) (h1 : 1 ≤ lim) (hlim : lim < limBound) :
    ∃ sv, Sieve.build lim = some sv ∧
      sv.primes.Pairwise (fun a b => a < b) ∧ sv.primes.Nodup ∧
      ∀ v, v ∈ sv.primes ↔ (2 ≤ v ∧ v ≤ lim ∧ Nat.Prime v) := by
  obtain ⟨sv, hsv, hv⟩ := build_valid lim h1 hlim
  exact ⟨sv, hsv, hv.sorted, hv.sorted.imp (fun h => Nat.ne_of_lt h), hv.mem_primes⟩

/-- Witness of C5 at the program's limit `100000000`. -/
theorem sieve_primes_exact_witness :
    ∃ sv, Sieve.build 100000000 = some sv ∧
      sv.primes.Pairwise (fun a b => a < b) ∧ sv.primes.Nodup ∧
      ∀ v, v ∈ sv.primes ↔ (2 ≤ v ∧ v ≤ 100000000 ∧ Nat.Prime v) :=
  sieve_primes_exact 100000000 (by decide) (by decide)

/-- C6: for a sieve built by the constructor and `n ≤ 2642245`, when
`cube_repr` returns from the double loop with `p`, `q`, `r`, its line is
`… = p + q + r` and `p < q < r` strictly. -/
theorem double_loop_match_ordered (lim n : Nat) (sv : Sieve) (p q r : Nat)
    (h1 : 1 ≤ lim) (hlim : lim < limBound) (hsv : Sieve.build lim = some sv)
    (hn : n ≤ 2642245) (hf : searchCube sv (cube64 n) = some (Found.triple p q r)) :
    cube_repr n sv = some (true, lineFound n p q r) ∧ p < q ∧ q < r := by
  have hv := valid_of_build h1 hlim hsv
  have hc := cube64_eq hn
  have hm := cube_lt_U64 hn
  refine ⟨?_, ?_⟩
  · unfold cube_repr
    rw [hf, hc]
    rfl
  · rw [hc] at hf
    obtain ⟨-, -, a3, a4, -⟩ := searchCube_triple_sound hv hlim hm hf
    exact ⟨a3, a4⟩

/-- Witness of C6 on the sieve of limit 60, at `n = 3`: `3 < 5 < 19`. -/
theorem double_loop_match_ordered_witness :
    searchCube sieve60 (cube64 3) = some (Found.triple 3 5 19) ∧
      cube_repr 3 sieve60 = some (true, lineFound 3 3 5 19) ∧ 3 < 5 ∧ 5 < 19 :=
  ⟨searchCube_sieve60_three,
    double_loop_match_ordered 60 3 sieve60 3 5 19 (by decide) (by decide) build_sieve60
      (by decide) searchCube_sieve60_three⟩

/-- C7: for `n ≤ 2642245` and any sieve, when `cube_repr` returns from the
even-cube phase with `p`, `q`, its line is `… = 2 + p + q`, the cube is even,
`p ≠ 2`, `q ≠ 2` and `p < q`: exactly one addend is `2` and the other two are
distinct. -/
theorem even_phase_match_shape (n : Nat) (sv : Sieve) (p q : Nat) (hn : n ≤ 2642245)
    (hf : searchCube sv (cube64 n) = some (Found.even p q)) :
    cube_repr n sv = some (true, lineFound n 2 p q) ∧ n ^ 3 % 2 = 0 ∧
      p ≠ 2 ∧ q ≠ 2 ∧ p < q := by
  have hc := cube64_eq hn
  refine ⟨?_, ?_⟩
  · unfold cube_repr
    rw [hf, hc]
    simp only [render_even]
    rfl
  · rw [hc, searchCube_even_iff] at hf
    exact ⟨hf.1, phase0_shape sv (n ^ 3) sv.primes p q hf.2⟩

/-- Witness of C7 on the sieve of limit 60, at `n = 4`: `64 = 2 + 3 + 59`. -/
theorem even_phase_match_shape_witness :
    searchCube sieve60 (cube64 4) = some (Found.even 3 59) ∧
      cube_repr 4 sieve60 = some (true, lineFound 4 2 3 59) ∧ 4 ^ 3 % 2 = 0 ∧
      3 ≠ 2 ∧ 59 ≠ 2 ∧ 3 < 59 :=
  ⟨searchCube_sieve60_four,
    even_phase_match_shape 4 sieve60 3 59 (by decide) searchCube_sieve60_four⟩

/-- C8: for every `n ≤ 2642245` and a sieve built with a limit of at least
`10000000` (as the program's `100000000`), `cube_repr` returns, and it returns
either `true` with a line of the shape `<n>^3 = <n³> = a + b + c` or `false`
with the line `<n>^3 = <n³>: NO REPRESENTATION FOUND`. -/
theorem cube_repr_total (lim n : Nat) (h7 : 10000000 ≤ lim) (hlim : lim < limBound)
    (hn : n ≤ 2642245) :
    ∃ sv, Sieve.build lim = some sv ∧
      ((∃ a b c, cube_repr n sv = some (true, lineFound n a b c)) ∨
        cube_repr n sv = some (false, lineNone n)) := by
  obtain ⟨sv, hsv, hv⟩ := build_valid lim (by omega) hlim
  have hc := cube64_eq hn
  obtain ⟨f, hf⟩ := searchCube_isSome sv (cube64 n) (by rw [hv.length_mark]; omega)
  refine ⟨sv, hsv, ?_⟩
  unfold cube_repr
  rw [hf, hc]
  cases f with
  | even p q => exact Or.inl ⟨2, p, q, by simp only [render_even]; rfl⟩
  | triple p q r => exact Or.inl ⟨p, q, r, rfl⟩
  | nothing => exact Or.inr rfl

/-- Witness of C8 at the program's limit `100000000` and `n = 3`. -/
theorem cube_repr_total_witness :
    ∃ sv, Sieve.build 100000000 = some sv ∧
      ((∃ a b c, cube_repr 3 sv = some (true, lineFound 3 a b c)) ∨
        cube_repr 3 sv = some (false, lineNone 3)) :=
  cube_repr_total 100000000 3 (by decide) (by decide) (by decide)

/-- C9: the value `m` that `cube_repr` computes (`n * n * n` in 128 bits, cut to
64 bits) is the natural number `n ^ 3` exactly when `n ≤ 2642245`; and
`2642245 ^ 3 < 2 ^ 64 ≤ 2642246 ^ 3`. -/
theorem cube64_exact_iff (n : Nat) :
    (cube64 n = n ^ 3 ↔ n ≤ 2642245) ∧ 2642245 ^ 3 < U64 ∧ U64 ≤ 2642246 ^ 3 := by
  refine ⟨⟨fun h => ?_, cube64_eq⟩, by unfold U64; norm_num, by unfold U64; norm_num⟩
  by_contra hgt
  have h1 : 2642246 ^ 3 ≤ n ^ 3 := Nat.pow_le_pow_left (by omega) 3
  have h2 : cube64 n < U64 := Nat.mod_lt _ (by unfold U64; norm_num)
  have h3 : U64 ≤ 2642246 ^ 3 := by unfold U64; norm_num
  omega

/-- C10: with the sieve of limit `100000000`, `cube_repr(3)` returns `true` and
the line `3^3 = 27 = 3 + 5 + 19`: the cube 27 is odd, the inner loop for
`p = 2` ends without a match, and the one for `p = 3` accepts `q = 5`,
`r = 19` at once. -/
theorem cube_repr_three :
    ∃ sv, Sieve.build 100000000 = some sv ∧
      cube_repr 3 sv = some (true, "3^3 = 27 = 3 + 5 + 19") ∧
      cube64 3 % 2 = 1 ∧
      ∃ tail, sv.primes = 2 :: 3 :: 5 :: tail ∧
        phase1Inner sv (cube64 3) 2 (3 :: 5 :: tail) = some none ∧
        phase1Inner sv (cube64 3) 3 (5 :: tail) = some (some (5, 19)) := by
  obtain ⟨sv, hsv, hv⟩ := build_valid 100000000 (by decide) (by decide)
  obtain ⟨tail, a1, a2, a3, a4⟩ := scenario_three hv (by decide)
  have hc : cube64 3 = 27 := by decide
  refine ⟨sv, hsv, ?_, by decide, tail, a1, by rw [hc]; exact a2, by rw [hc]; exact a3⟩
  unfold cube_repr
  rw [hc, a4]
  decide

/-! ## Theorems: the scenario `n = 4` -/

theorem scenario_four {sv : Sieve} {lim : Nat} (hv : sv.Valid lim) (h60 : 60 ≤ lim) :
    ∃ tail, sv.primes = 2 :: 3 :: tail ∧
      isPrime64 60 sv = some false ∧
      phase0 sv 64 (3 :: tail) = some (some (3, 59)) ∧
      searchCube sv 64 = some (Found.even 3 59) := by
  obtain ⟨tail, ht⟩ := hv.primes_start (by omega)
  have e1 : sub64 (sub64 64 2) 2 = 60 := by decide
  have e2 : sub64 (sub64 64 2) 3 = 59 := by decide
  have p60 : isPrime64 60 sv = some false := by
    rw [isPrime64_small hv (by norm_num) (by omega)]; norm_num
  have p59 : isPrime64 59 sv = some true := by
    rw [isPrime64_small hv (by norm_num) (by omega)]; norm_num
  have h3 : phase0 sv 64 (3 :: 5 :: 7 :: 11 :: 13 :: tail) = some (some (3, 59)) := by
    simp [phase0, e2, p59]
  refine ⟨5 :: 7 :: 11 :: 13 :: tail, ht, p60, h3, ?_⟩
  rw [searchCube_even_iff, ht]
  refine ⟨by decide, ?_⟩
  rw [phase0]
  simp [e1, p60, h3]

/-! ## The claims, continued -/

/-- C11: with the sieve of limit `100000000`, `cube_repr(4)` returns `true` and
the line `4^3 = 64 = 2 + 3 + 59`: the cube 64 is even, the even-cube phase
rejects `p = 2` because `q = 60` is not prime and accepts `p = 3`, `q = 59`. -/
theorem cube_repr_four :
    ∃ sv, Sieve.build 100000000 = some sv ∧
      cube_repr 4 sv = some (true, "4^3 = 64 = 2 + 3 + 59") ∧
      cube64 4 % 2 = 0 ∧ sub64 (sub64 (cube64 4) 2) 2 = 60 ∧ isPrime64 60 sv = some false ∧
      ∃ tail, sv.primes = 2 :: 3 :: tail ∧
        phase0 sv (cube64 4) (3 :: tail) = some (some (3, 59)) := by
  obtain ⟨sv, hsv, hv⟩ := build_valid 100000000 (by decide) (by decide)
  obtain ⟨tail, a1, a2, a3, a4⟩ := scenario_four hv (by decide)
  have hc : cube64 4 = 64 := by decide
  refine ⟨sv, hsv, ?_, by decide, by decide, a2, tail, a1, by rw [hc]; exact a3⟩
  unfold cube_repr
  rw [hc, a4]
  decide

/-- C15: for 64-bit `a`, `b` and `1 ≤ m < 2^64`, `mul_mod(a, b, m)` is
`(a * b) mod m` over the natural numbers: the product fits the 128-bit
intermediate and the remainder, being below `m`, fits 64 bits. -/
theorem mul_mod_exact (a b m : Nat) (ha : a < U64) (hb : b < U64) (hm1 : 1 ≤ m)
    (hm : m < U64) :
    mul_mod a b m = (a * b) % m ∧ a * b < U128 ∧ (a * b) % m < m := by
  have hab : a * b < U128 := by
    have h1 : a * b ≤ (U64 - 1) * (U64 - 1) := Nat.mul_le_mul (by omega) (by omega)
    have h2 : (U64 - 1) * (U64 - 1) < U128 := by unfold U64 U128; norm_num
    omega
  have hlt : (a * b) % m < m := Nat.mod_lt _ (by omega)
  refine ⟨?_, hab, hlt⟩
  unfold mul_mod
  rw [Nat.mod_eq_of_lt hab, Nat.mod_eq_of_lt (by omega : (a * b) % m < U64)]

/-- Witness of C15 at the largest 64-bit operands. -/
theorem mul_mod_exact_witness :
    mul_mod 18446744073709551615 18446744073709551615 18446744073709551557 =
        (18446744073709551615 * 18446744073709551615) % 18446744073709551557 ∧
      18446744073709551615 * 18446744073709551615 < U128 ∧
      (18446744073709551615 * 18446744073709551615) % 18446744073709551557
        < 18446744073709551557 :=
  mul_mod_exact 18446744073709551615 18446744073709551615 18446744073709551557
    (by decide) (by decide) (by decide) (by decide)

/-- C16: for `n ≤ 10000000` and the sieve of limit `100000000`, `isPrime64(n)`
is `isPrimeSmall(n)`; the cast to 32 bits leaves `n` unchanged, the index `n`
is inside the marker array, and the verdict is `true` exactly for primes. -/
theorem isPrime64_small_by_sieve (n : Nat) (hn : n ≤ 10000000) :
    ∃ sv, Sieve.build 100000000 = some sv ∧
      isPrime64 n sv = sv.isPrimeSmall n ∧ n % U32 = n ∧
      n ≤ 100000000 ∧ n < sv.mark.length ∧
      (∃ b, isPrime64 n sv = some b) ∧ (isPrime64 n sv = some true ↔ Nat.Prime n) := by
  obtain ⟨sv, hsv, hv⟩ := build_valid 100000000 (by decide) (by decide)
  have hmod : n % U32 = n := Nat.mod_eq_of_lt (by unfold U32; omega)
  have hsmall := isPrime64_small hv hn (by omega : n ≤ 100000000)
  refine ⟨sv, hsv, ?_, hmod, by omega, by rw [hv.length_mark]; omega, ⟨_, hsmall⟩, ?_⟩
  · unfold isPrime64
    rw [if_pos hn, hmod]
  · rw [hsmall]
    simp

/-- Witness of C16 at `n = 9999991`. -/
theorem isPrime64_small_by_sieve_witness :
    ∃ sv, Sieve.build 100000000 = some sv ∧
      isPrime64 9999991 sv = sv.isPrimeSmall 9999991 ∧ 9999991 % U32 = 9999991 ∧
      9999991 ≤ 100000000 ∧ 9999991 < sv.mark.length ∧
      (∃ b, isPrime64 9999991 sv = some b) ∧
      (isPrime64 9999991 sv = some true ↔ Nat.Prime 9999991) :=
  isPrime64_small_by_sieve 9999991 (by decide)

/-! ## Theorems: no subtraction of the search wraps -/

theorem phase0Trace_safe (sv : Sieve) (m : Nat) :
    ∀ (L : List Nat), List.Chain' (fun a b => a < b ∧ b ≤ 2 * a) L →
      (∀ y ∈ L.head?, y < m → y + 2 ≤ m) → (∀ v ∈ L, v < U64) → m < U64 →
      ∀ p ∈ phase0Trace sv m L, p + 2 ≤ m := by
  intro L
  induction L with
  | nil => intro _ _ _ _ p hp; simp [phase0Trace] at hp
  | cons p0 rest ih =>
    intro hchain hhead hsmall hm p hp
    rw [phase0Trace] at hp
    by_cases hge : p0 ≥ m
    · simp [hge] at hp
    · rw [if_neg hge] at hp
      have hp0 : p0 + 2 ≤ m := hhead p0 (by simp) (by omega)
      have hsub : sub64 (sub64 m 2) p0 = m - 2 - p0 := by
        rw [sub64_eq (by omega) hm, sub64_eq (by omega) (by omega)]
      rw [hsub] at hp
      by_cases hbreak : m - 2 - p0 ≤ p0
      · rw [if_pos hbreak] at hp
        simp only [List.mem_singleton] at hp
        omega
      · rw [if_neg hbreak] at hp
        rw [List.chain'_cons'] at hchain
        have hrec : ∀ p ∈ phase0Trace sv m rest, p + 2 ≤ m :=
          ih hchain.2 (fun y hy _ => by have := hchain.1 y hy; omega)
            (fun v hv => hsmall v (List.mem_cons_of_mem _ hv)) hm
        cases hprime : isPrime64 (m - 2 - p0) sv with
        | none =>
          simp only [hprime, List.mem_singleton] at hp
          omega
        | some b =>
          simp only [hprime] at hp
          by_cases hacc : (b && m - 2 - p0 != 2 && p0 != 2) = true
          · rw [if_pos hacc] at hp
            simp only [List.mem_singleton] at hp
            omega
          · rw [if_neg hacc] at hp
            rcases List.mem_cons.mp hp with h | h
            · omega
            · exact hrec p h

theorem phase1InnerTrace_safe (sv : Sieve) (m p : Nat) (hm : m < U64) :
    ∀ (L : List Nat), List.Chain' (fun a b => a < b ∧ b ≤ 2 * a) L →
      (∀ y ∈ L.head?, p + y ≤ m) → ∀ q ∈ phase1InnerTrace sv m p L, p + q ≤ m := by
  intro L
  induction L with
  | nil => intro _ _ q hq; simp [phase1InnerTrace] at hq
  | cons q0 rest ih =>
    intro hchain hhead q hq
    have hq0 : p + q0 ≤ m := hhead q0 (by simp)
    have hsub : sub64 (sub64 m p) q0 = m - p - q0 := by
      rw [sub64_eq (by omega) hm, sub64_eq (by omega) (by omega)]
    rw [phase1InnerTrace, hsub] at hq
    by_cases hbreak : m - p - q0 < q0
    · rw [if_pos hbreak] at hq
      simp only [List.mem_singleton] at hq
      omega
    · rw [if_neg hbreak] at hq
      rw [List.chain'_cons'] at hchain
      have hrec : ∀ q ∈ phase1InnerTrace sv m p rest, p + q ≤ m :=
        ih hchain.2 (fun y hy => by have := hchain.1 y hy; omega)
      cases hprime : isPrime64 (m - p - q0) sv with
      | none =>
        simp only [hprime, List.mem_singleton] at hq
        omega
      | some b =>
        simp only [hprime] at hq
        by_cases hacc : (b && m - p - q0 != p && m - p - q0 != q0) = true
        · rw [if_pos hacc] at hq
          simp only [List.mem_singleton] at hq
          omega
        · rw [if_neg hacc] at hq
          rcases List.mem_cons.mp hq with h | h
          · omega
          · exact hrec q h

theorem phase1Trace_safe (sv : Sieve) (m : Nat) (hm : m < U64) :
    ∀ (L : List Nat), List.Chain' (fun a b => a < b ∧ b ≤ 2 * a) L → (∀ v ∈ L, v < U32) →
      ∀ pq ∈ phase1Trace sv m L, pq.1 + pq.2 ≤ m := by
  intro L
  induction L with
  | nil => intro _ _ pq h; simp [phase1Trace] at h
  | cons p0 rest ih =>
    intro hchain hsmall pq h
    have hp0 : p0 < U32 := hsmall p0 (by simp)
    have hmod : (p0 * 3) % U128 = p0 * 3 :=
      Nat.mod_eq_of_lt (by unfold U32 at hp0; unfold U128; omega)
    rw [phase1Trace, hmod] at h
    by_cases hbig : p0 * 3 > m
    · simp [hbig] at h
    · rw [if_neg hbig] at h
      rw [List.chain'_cons'] at hchain
      rcases List.mem_append.mp h with h1 | h1
      · obtain ⟨q, hq, rfl⟩ := List.mem_map.mp h1
        exact phase1InnerTrace_safe sv m p0 hm rest hchain.2
          (fun y hy => by have := hchain.1 y hy; omega) q hq
      · have hrec := ih hchain.2 (fun v hv => hsmall v (List.mem_cons_of_mem _ hv)) pq
        cases hin : phase1Inner sv m p0 rest with
        | none => simp [hin] at h1
        | some o =>
          cases o with
          | none => rw [hin] at h1; exact hrec h1
          | some qr => simp [hin] at h1

/-- C18: for `n ≤ 2642245`, `m = n ^ 3` and a sieve built by the constructor
(its primes are all the primes up to the limit), at every `p` where the
even-cube phase evaluates `q = m - 2 - p` one has `p + 2 ≤ m`, and at every
`(p, q)` where the double loop evaluates `r = m - p - q` one has `p + q ≤ m`;
so the machine differences are the differences over the natural numbers. -/
theorem search_subtractions_exact (lim n : Nat) (sv : Sieve) (h1 : 1 ≤ lim)
    (hlim : lim < limBound) (hsv : Sieve.build lim = some sv) (hn : n ≤ 2642245) :
    cube64 n = n ^ 3 ∧
    (n ^ 3 % 2 = 0 → ∀ p ∈ phase0Trace sv (n ^ 3) sv.primes,
      p + 2 ≤ n ^ 3 ∧ sub64 (sub64 (n ^ 3) 2) p = n ^ 3 - 2 - p) ∧
    (∀ pq ∈ phase1Trace sv (n ^ 3) sv.primes,
      pq.1 + pq.2 ≤ n ^ 3 ∧ sub64 (sub64 (n ^ 3) pq.1) pq.2 = n ^ 3 - pq.1 - pq.2) := by
  have hv := valid_of_build h1 hlim hsv
  have hm := cube_lt_U64 hn
  have h32 : ∀ v ∈ sv.primes, v < U32 := fun v hmem => hv.lt_U32 hlim hmem
  refine ⟨cube64_eq hn, fun heven p hp => ?_, fun pq hpq => ?_⟩
  · have hsafe : p + 2 ≤ n ^ 3 := by
      refine phase0Trace_safe sv (n ^ 3) sv.primes hv.chain ?_
        (fun v hmem => by have := h32 v hmem; unfold U32 at this; unfold U64; omega) hm p hp
      intro y hy hlt
      rcases hv.primes_head with h0 | ⟨rest, h0⟩
      · rw [h0] at hy; simp at hy
      · rw [h0] at hy
        simp only [List.head?_cons, Option.mem_def, Option.some.injEq] at hy
        omega
    refine ⟨hsafe, ?_⟩
    rw [sub64_eq (by omega) hm, sub64_eq (by omega) (by omega)]
  · have hsafe := phase1Trace_safe sv (n ^ 3) hm sv.primes hv.chain h32 pq hpq
    refine ⟨hsafe, ?_⟩
    rw [sub64_eq (by omega) hm, sub64_eq (by omega) (by omega)]

/-- Witness of C18 on the sieve of limit 60, at `n = 4`: phase 0 evaluates
`q` at `p = 2` and `p = 3`, and the double loop would evaluate `r` at `(2, 3)`. -/
theorem search_subtractions_exact_witness :
    phase0Trace sieve60 (4 ^ 3) sieve60.primes = [2, 3] ∧
    phase1Trace sieve60 (4 ^ 3) sieve60.primes = [(2, 3)] ∧
    cube64 4 = 4 ^ 3 ∧
    (4 ^ 3 % 2 = 0 → ∀ p ∈ phase0Trace sieve60 (4 ^ 3) sieve60.primes,
      p + 2 ≤ 4 ^ 3 ∧ sub64 (sub64 (4 ^ 3) 2) p = 4 ^ 3 - 2 - p) ∧
    (∀ pq ∈ phase1Trace sieve60 (4 ^ 3) sieve60.primes,
      pq.1 + pq.2 ≤ 4 ^ 3 ∧ sub64 (sub64 (4 ^ 3) pq.1) pq.2 = 4 ^ 3 - pq.1 - pq.2) :=
  ⟨by decide, by decide,
    search_subtractions_exact 60 4 sieve60 (by decide) (by decide) build_sieve60 (by decide)⟩

/-! ## Theorems: the oracle accepts every prime -/

theorem mul_mod_eq {a b m : Nat} (ha : a < U64) (hb : b < U64) (hm0 : 0 < m) (hm : m < U64) :
    mul_mod a b m = (a * b) % m := by
  have hab : a * b < U128 := by
    have h1 : a * b ≤ (U64 - 1) * (U64 - 1) := Nat.mul_le_mul (by omega) (by omega)
    have h2 : (U64 - 1) * (U64 - 1) < U128 := by unfold U64 U128; norm_num
    omega
  have hlt : (a * b) % m < m := Nat.mod_lt _ hm0
  unfold mul_mod
  rw [Nat.mod_eq_of_lt hab, Nat.mod_eq_of_lt (by omega : (a * b) % m < U64)]

/-- The loop of `pow_mod` computes `r * a ^ e mod m`. -/
theorem powLoop_spec (m : Nat) (hm0 : 0 < m) (hm : m < U64) :
    ∀ (fuel a e r : Nat), e < 2 ^ fuel → a < m → r < m →
      powLoop m (fuel + 1) a e r = some ((r * a ^ e) % m) := by
  intro fuel
  induction fuel with
  | zero =>
    intro a e r h _ hr
    have he : e = 0 := by simpa using h
    subst he
    simp [powLoop, Nat.mod_eq_of_lt hr]
  | succ fuel ih =>
    intro a e r h ha hr
    by_cases he : e = 0
    · subst he
      simp [powLoop, Nat.mod_eq_of_lt hr]
    · have h2 : e / 2 < 2 ^ fuel := by
        rw [Nat.div_lt_iff_lt_mul (by norm_num)]
        rw [pow_succ] at h
        exact h
      have haa : mul_mod a a m = (a * a) % m := mul_mod_eq (by omega) (by omega) hm0 hm
      have hra : mul_mod r a m = (r * a) % m := mul_mod_eq (by omega) (by omega) hm0 hm
      rw [powLoop, if_neg he, haa, hra]
      have hlt1 : (a * a) % m < m := Nat.mod_lt _ hm0
      have hsplit : e = 2 * (e / 2) + e % 2 := (Nat.div_add_mod e 2).symm
      have hpow : (a * a) ^ (e / 2) = a ^ (2 * (e / 2)) := by
        rw [← sq, ← pow_mul]
      by_cases hodd : e % 2 = 1
      · rw [if_pos hodd, ih _ _ _ h2 hlt1 (Nat.mod_lt _ hm0)]
        congr 1
        have hE : a ^ e = a * (a * a) ^ (e / 2) := by
          rw [hpow]
          conv_lhs => rw [hsplit, hodd, pow_succ]
          ring
        have hmq : Nat.ModEq m ((r * a % m) * (a * a % m) ^ (e / 2)) (r * a * (a * a) ^ (e / 2)) :=
          (Nat.mod_modEq _ _).mul ((Nat.mod_modEq _ _).pow _)
        rw [hE, ← Nat.mul_assoc]
        exact hmq
      · have hev : e % 2 = 0 := by omega
        rw [if_neg hodd, ih _ _ _ h2 hlt1 hr]
        congr 1
        have hE : a ^ e = (a * a) ^ (e / 2) := by
          rw [hpow]
          conv_lhs => rw [hsplit, hev, Nat.add_zero]
        have hmq : Nat.ModEq m (r * (a * a % m) ^ (e / 2)) (r * (a * a) ^ (e / 2)) :=
          Nat.ModEq.mul_left r ((Nat.mod_modEq _ _).pow _)
        rw [hE]
        exact hmq

theorem pow_mod_spec {a e m : Nat} (hm : m < U64) (ha : a < m) (he : e < U64) (hm1 : 1 < m) :
    pow_mod a e m = some (a ^ e % m) := by
  have := powLoop_spec m (by omega) hm 64 a e 1 he ha hm1
  simpa [pow_mod] using this

/-- The loop that strips the factors two ends with `d` odd and
`2 ^ (r1 - r) * d1` the number it started from. -/
theorem splitTwos_spec :
    ∀ (fuel d r : Nat), 0 < d → d < 2 ^ fuel → r + fuel < U64 →
      ∃ d1 k, splitTwos fuel d r = some (d1, r + k) ∧ d1 % 2 = 1 ∧ d = 2 ^ k * d1 := by
  intro fuel
  induction fuel with
  | zero => intro d r h0 h; simp at h; omega
  | succ fuel ih =>
    intro d r h0 h hr
    by_cases hd : d % 2 = 0
    · have h2 : d / 2 < 2 ^ fuel := by
        rw [Nat.div_lt_iff_lt_mul (by norm_num)]
        rw [pow_succ] at h
        exact h
      have hmod : (r + 1) % U64 = r + 1 := Nat.mod_eq_of_lt (by omega)
      obtain ⟨d1, k, a, b, c⟩ := ih (d / 2) (r + 1) (by omega) h2 (by omega)
      refine ⟨d1, k + 1, ?_, b, ?_⟩
      · rw [splitTwos, if_pos hd, hmod, a]
        congr 2
        omega
      · have hd2 : d = 2 * (d / 2) := by omega
        rw [hd2, c, pow_succ]
        ring
    · refine ⟨d, 0, by rw [splitTwos, if_neg hd]; rfl, by omega, by simp⟩

theorem pow_two_pow_eq_one {K : Type} [Field K] (x : K) :
    ∀ r : Nat, x ^ (2 ^ r) = 1 → x = 1 ∨ ∃ i, i < r ∧ x ^ (2 ^ i) = -1 := by
  intro r
  induction r with
  | zero => intro h; left; simpa using h
  | succ r ih =>
    intro h
    rw [pow_succ, pow_mul, sq_eq_one_iff] at h
    rcases h with h | h
    · rcases ih h with h1 | ⟨i, hi, h1⟩
      · exact Or.inl h1
      · exact Or.inr ⟨i, Nat.lt_succ_of_lt hi, h1⟩
    · exact Or.inr ⟨r, Nat.lt_succ_self r, h⟩

/-- A prime is a strong probable prime to every base it does not divide. -/
theorem strong_probable_prime {n a d r : Nat} (hp : Nat.Prime n) (ha0 : 0 < a) (han : a < n)
    (hfac : n - 1 = 2 ^ r * d) :
    a ^ d % n = 1 ∨ ∃ i, i < r ∧ (a ^ d % n) ^ (2 ^ i) % n = n - 1 := by
  haveI : Fact (Nat.Prime n) := ⟨hp⟩
  have hn1 : 1 < n := hp.one_lt
  have hane : (a : ZMod n) ≠ 0 := by
    rw [Ne, ZMod.natCast_zmod_eq_zero_iff_dvd]
    intro hdvd
    have := Nat.le_of_dvd ha0 hdvd
    omega
  have hone : ((a : ZMod n) ^ d) ^ (2 ^ r) = 1 := by
    rw [← pow_mul, Nat.mul_comm, ← hfac]
    exact ZMod.pow_card_sub_one_eq_one hane
  rcases pow_two_pow_eq_one ((a : ZMod n) ^ d) r hone with h | ⟨i, hi, h⟩
  · left
    have h1 : ((a ^ d : Nat) : ZMod n) = ((1 : Nat) : ZMod n) := by
      push_cast; exact h
    rw [ZMod.natCast_eq_natCast_iff', Nat.mod_eq_of_lt hn1] at h1
    exact h1
  · right
    refine ⟨i, hi, ?_⟩
    have h1 : (((a ^ d % n) ^ (2 ^ i) : Nat) : ZMod n) = ((n - 1 : Nat) : ZMod n) := by
      rw [Nat.cast_pow, ZMod.natCast_mod, Nat.cast_pow, h, Nat.cast_sub (by omega),
        ZMod.natCast_self]
      simp
    rw [ZMod.natCast_eq_natCast_iff', Nat.mod_eq_of_lt (by omega : n - 1 < n)] at h1
    exact h1

theorem squareLoop_hit (n : Nat) (hn1 : 1 < n) (hn : n < U64) :
    ∀ (k x : Nat), x < n → (∃ i, 1 ≤ i ∧ i ≤ k ∧ x ^ (2 ^ i) % n = n - 1) →
      squareLoop n k x = false := by
  intro k
  induction k with
  | zero => rintro x _ ⟨i, h1, h2, -⟩; omega
  | succ k ih =>
    rintro x hx ⟨i, h1, h2, h3⟩
    have hxx : mul_mod x x n = (x * x) % n := mul_mod_eq (by omega) (by omega) (by omega) hn
    rw [squareLoop, hxx]
    by_cases hhit : (x * x) % n = n - 1
    · rw [if_pos hhit]
    · rw [if_neg hhit]
      apply ih _ (Nat.mod_lt _ (by omega))
      obtain ⟨j, rfl⟩ : ∃ j, i = j + 1 := ⟨i - 1, by omega⟩
      have hpow : x ^ (2 ^ (j + 1)) = (x * x) ^ (2 ^ j) := by
        rw [pow_succ, Nat.mul_comm, pow_mul, sq]
      rw [hpow] at h3
      rcases Nat.eq_zero_or_pos j with hj | hj
      · subst hj
        simp at h3
        exact absurd h3 hhit
      · refine ⟨j, hj, by omega, ?_⟩
        rw [← Nat.pow_mod]
        exact h3

theorem basesLoop_prime {n d r : Nat} (hp : Nat.Prime n) (hn : n < U64)
    (hfac : n - 1 = 2 ^ r * d) :
    ∀ L : List Nat, (∀ a ∈ L, 0 < a) → basesLoop n d r L = some true := by
  have hn1 : 1 < n := hp.one_lt
  have hd : d < U64 := by
    have h1 : 0 < 2 ^ r := Nat.two_pow_pos _
    have h2 : d ≤ 2 ^ r * d := Nat.le_mul_of_pos_left d h1
    omega
  intro L
  induction L with
  | nil => intro _; rfl
  | cons a rest ih =>
    intro hpos
    have hrest := ih (fun b hb => hpos b (List.mem_cons_of_mem _ hb))
    rw [basesLoop]
    by_cases hge : a ≥ n
    · rw [if_pos hge]
    · rw [if_neg hge, pow_mod_spec hn (by omega) hd hn1]
      simp only
      have hx : a ^ d % n < n := Nat.mod_lt _ (by omega)
      by_cases h1 : a ^ d % n = 1 ∨ a ^ d % n = n - 1
      · rw [if_pos h1, hrest]
      · rw [if_neg h1]
        rcases strong_probable_prime hp (hpos a (by simp)) (by omega) hfac with h | ⟨i, hi, h⟩
        · exact absurd (Or.inl h) h1
        · rcases Nat.eq_zero_or_pos i with hi0 | hi0
          · subst hi0
            simp only [pow_zero, pow_one, Nat.mod_mod] at h
            exact absurd (Or.inr h) h1
          · rw [squareLoop_hit n hn1 hn (r - 1) _ hx ⟨i, hi0, by omega, h⟩, hrest]
            simp

/-- The oracle never rejects a prime, for a valid sieve that covers the
indices up to `10'000'000`. -/
theorem isPrime64_prime {sv : Sieve} {lim n : Nat} (hv : sv.Valid lim) (h7 : 10000000 ≤ lim)
    (hp : Nat.Prime n) (hn : n < U64) : isPrime64 n sv = some true := by
  by_cases hsmall : n ≤ 10000000
  · rw [isPrime64_small hv hsmall (by omega)]
    simp [hp]
  · have hodd : n % 2 = 1 := by
      rcases hp.eq_two_or_odd with h | h
      · omega
      · exact h
    obtain ⟨d, k, a, b, c⟩ := splitTwos_spec 64 (n - 1) 0 (by omega)
      (by unfold U64 at hn; omega) (by unfold U64; norm_num)
    unfold isPrime64
    rw [if_neg hsmall, if_neg (by omega), a]
    simp only [Nat.zero_add]
    exact basesLoop_prime hp hn c bases (by decide)

/-- A value computed by `pow_mod` is a power in `ZMod m`. -/
theorem zmod_pow_of_pow_mod {a e m v : Nat} (hm : m < U64) (ha : a < m) (he : e < U64)
    (hm1 : 1 < m) (h : pow_mod a e m = some v) : ((a : Nat) : ZMod m) ^ e = ((v : Nat) : ZMod m) := by
  rw [pow_mod_spec hm ha he hm1] at h
  have hv : a ^ e % m = v := Option.some.inj h
  rw [← hv, ZMod.natCast_mod, Nat.cast_pow]

/-- The number `11337409 = 2^6 * 3^11 + 1` is prime, by the Lucas test to the
base 7 with the powers computed by `pow_mod`. -/
theorem prime_11337409 : Nat.Prime 11337409 := by
  have e1 : 11337409 - 1 = 11337408 := by decide
  have e2 : 11337408 / 2 = 5668704 := by decide
  have e3 : 11337408 / 3 = 3779136 := by decide
  have hf : 11337408 = 2 ^ 6 * 3 ^ 11 := by norm_num
  have h1 : ((7 : Nat) : ZMod 11337409) ^ 11337408 = ((1 : Nat) : ZMod 11337409) :=
    zmod_pow_of_pow_mod (by decide) (by decide) (by decide) (by decide) (by decide)
  have h2 : ((7 : Nat) : ZMod 11337409) ^ 5668704 = ((11337408 : Nat) : ZMod 11337409) :=
    zmod_pow_of_pow_mod (by decide) (by decide) (by decide) (by decide) (by decide)
  have h3 : ((7 : Nat) : ZMod 11337409) ^ 3779136 = ((5671620 : Nat) : ZMod 11337409) :=
    zmod_pow_of_pow_mod (by decide) (by decide) (by decide) (by decide) (by decide)
  have hne : ∀ v : Nat, v % 11337409 ≠ 1 % 11337409 →
      ((v : Nat) : ZMod 11337409) ≠ 1 := by
    intro v hv h
    apply hv
    rw [← ZMod.natCast_eq_natCast_iff', h, Nat.cast_one]
  refine lucas_primality 11337409 ((7 : Nat) : ZMod 11337409) ?_ ?_
  · rw [e1, h1, Nat.cast_one]
  · intro q hq hdvd
    rw [e1] at hdvd ⊢
    have hq23 : q = 2 ∨ q = 3 := by
      rw [hf] at hdvd
      rcases (Nat.Prime.dvd_mul hq).mp hdvd with h | h
      · exact Or.inl ((Nat.prime_dvd_prime_iff_eq hq Nat.prime_two).mp (hq.dvd_of_dvd_pow h))
      · exact Or.inr ((Nat.prime_dvd_prime_iff_eq hq Nat.prime_three).mp (hq.dvd_of_dvd_pow h))
    rcases hq23 with rfl | rfl
    · rw [e2, h2]
      exact hne 11337408 (by decide)
    · rw [e3, h3]
      exact hne 5671620 (by decide)

/-- C17: `isPrime64` never rejects a prime.  For the sieve built with a limit of
at least `10000000` (as the program's `100000000`) and every prime `n < 2^64`,
`isPrime64(n)` returns `true`; and for `n > 10000000` the loop finds
`n - 1 = 2^r * d` with `d` odd, and for every base `a` the power `a^d mod n`
is `1` or `n - 1`, or one of the `r - 1` squarings hits `n - 1` (the flag
`composite` ends `false`). -/
theorem isPrime64_no_false_negative (lim n : Nat) (h7 : 10000000 ≤ lim)
    (hlim : lim < limBound) (hp : Nat.Prime n) (hn : n < U64) :
    ∃ sv, Sieve.build lim = some sv ∧ isPrime64 n sv = some true ∧
      (10000000 < n → ∃ d r, splitTwos 64 (n - 1) 0 = some (d, r) ∧
        n - 1 = 2 ^ r * d ∧ d % 2 = 1 ∧
        ∀ a ∈ bases, pow_mod a d n = some (a ^ d % n) ∧
          (a ^ d % n = 1 ∨ a ^ d % n = n - 1 ∨ squareLoop n (r - 1) (a ^ d % n) = false)) := by
  obtain ⟨sv, hsv, hv⟩ := build_valid lim (by omega) hlim
  refine ⟨sv, hsv, isPrime64_prime hv h7 hp hn, fun hbig => ?_⟩
  have hn1 : 1 < n := hp.one_lt
  obtain ⟨d, k, a, b, c⟩ := splitTwos_spec 64 (n - 1) 0 (by omega)
    (by unfold U64 at hn; omega) (by unfold U64; norm_num)
  rw [Nat.zero_add] at a
  have hd : d < U64 := by
    have h1 : 0 < 2 ^ k := Nat.two_pow_pos _
    have h2 : d ≤ 2 ^ k * d := Nat.le_mul_of_pos_left d h1
    omega
  refine ⟨d, k, a, c, b, fun x hx => ?_⟩
  have hxlt : x < n := by
    have : x ≤ 17 := by
      simp only [bases, List.mem_cons, List.mem_singleton, List.not_mem_nil, or_false] at hx
      omega
    omega
  have hx0 : 0 < x := by
    simp only [bases, List.mem_cons, List.mem_singleton, List.not_mem_nil, or_false] at hx
    omega
  refine ⟨pow_mod_spec hn hxlt hd hn1, ?_⟩
  rcases strong_probable_prime hp hx0 hxlt c with h | ⟨i, hi, h⟩
  · exact Or.inl h
  · rcases Nat.eq_zero_or_pos i with hi0 | hi0
    · subst hi0
      simp only [pow_zero, pow_one, Nat.mod_mod] at h
      exact Or.inr (Or.inl h)
    · exact Or.inr (Or.inr (squareLoop_hit n hn1 hn (k - 1) _ (Nat.mod_lt _ (by omega))
        ⟨i, hi0, by omega, h⟩))

/-- Witness of C17 at the program's limit and the prime `11337409`. -/
theorem isPrime64_no_false_negative_witness :
    ∃ sv, Sieve.build 100000000 = some sv ∧ isPrime64 11337409 sv = some true ∧
      (10000000 < 11337409 → ∃ d r, splitTwos 64 (11337409 - 1) 0 = some (d, r) ∧
        11337409 - 1 = 2 ^ r * d ∧ d % 2 = 1 ∧
        ∀ a ∈ bases, pow_mod a d 11337409 = some (a ^ d % 11337409) ∧
          (a ^ d % 11337409 = 1 ∨ a ^ d % 11337409 = 11337409 - 1 ∨
            squareLoop 11337409 (r - 1) (a ^ d % 11337409) = false)) :=
  isPrime64_no_false_negative 100000000 11337409 (by decide) (by decide)
    prime_11337409 (by decide)

/-! ## Theorems: the first match wins -/

/-- Phase 0 returns a match at or before any candidate that passes its test. -/
theorem phase0_first (sv : Sieve) (m : Nat) (hm : m < U64)
    (hlen : 10000000 < sv.mark.length) :
    ∀ (L : List Nat), List.Chain' (fun a b => a < b ∧ b ≤ 2 * a) L →
      List.Pairwise (fun a b => a < b) L → (∀ y ∈ L.head?, y + 2 ≤ m) → (∀ v ∈ L, 2 ≤ v) →
      ∀ p ∈ L, p ≠ 2 → p + 2 + p < m → isPrime64 (m - 2 - p) sv = some true →
      ∃ p0 q0, phase0 sv m L = some (some (p0, q0)) ∧ p0 ≤ p := by
  intro L
  induction L with
  | nil => intro _ _ _ _ p hp; simp at hp
  | cons a rest ih =>
    intro hchain hsorted hhead hge2 p hp hp2 hpm hprime
    have ha : a + 2 ≤ m := hhead a (by simp)
    have ha2 : 2 ≤ a := hge2 a (by simp)
    rw [List.pairwise_cons] at hsorted
    rw [List.chain'_cons'] at hchain
    have hap : a ≤ p := by
      rcases List.mem_cons.mp hp with h | h
      · omega
      · exact Nat.le_of_lt (hsorted.1 p h)
    have hsub : sub64 (sub64 m 2) a = m - 2 - a := by
      rw [sub64_eq (by omega) hm, sub64_eq (by omega) (by omega)]
    obtain ⟨b, hb⟩ := isPrime64_isSome sv (m - 2 - a) hlen (by omega)
    rw [phase0, hsub, if_neg (by omega), if_neg (by omega), hb]
    simp only
    by_cases hacc : (b && m - 2 - a != 2 && a != 2) = true
    · rw [if_pos hacc]
      exact ⟨a, m - 2 - a, rfl, hap⟩
    · rw [if_neg hacc]
      have hne : p ≠ a := by
        rintro rfl
        rw [hb] at hprime
        simp only [Option.some.injEq] at hprime
        subst hprime
        apply hacc
        simp only [Bool.true_and, Bool.and_eq_true, bne_iff_ne, ne_eq]
        exact ⟨by omega, hp2⟩
      have hmem : p ∈ rest := by
        rcases List.mem_cons.mp hp with h | h
        · exact absurd h hne
        · exact h
      have hlt : a < p := hsorted.1 p hmem
      exact ih hchain.2 hsorted.2 (fun y hy => by have := hchain.1 y hy; omega)
        (fun v hv => hge2 v (List.mem_cons_of_mem _ hv)) p hmem hp2 hpm hprime

/-- The inner loop of phase 1 returns a match at or before any candidate that
passes its test. -/
theorem phase1Inner_first (sv : Sieve) (m p : Nat) (hm : m < U64)
    (hlen : 10000000 < sv.mark.length) :
    ∀ (L : List Nat), List.Chain' (fun a b => a < b ∧ b ≤ 2 * a) L →
      List.Pairwise (fun a b => a < b) L → (∀ y ∈ L.head?, p + y ≤ m) → (∀ v ∈ L, p < v) →
      ∀ q ∈ L, p + q + q ≤ m → m - p - q ≠ q → isPrime64 (m - p - q) sv = some true →
      ∃ q0 r0, phase1Inner sv m p L = some (some (q0, r0)) ∧ q0 ≤ q := by
  intro L
  induction L with
  | nil => intro _ _ _ _ q hq; simp at hq
  | cons a rest ih =>
    intro hchain hsorted hhead hgt q hq hqm hrq hprime
    have ha : p + a ≤ m := hhead a (by simp)
    have hpa : p < a := hgt a (by simp)
    rw [List.pairwise_cons] at hsorted
    rw [List.chain'_cons'] at hchain
    have haq : a ≤ q := by
      rcases List.mem_cons.mp hq with h | h
      · omega
      · exact Nat.le_of_lt (hsorted.1 q h)
    have hsub : sub64 (sub64 m p) a = m - p - a := by
      rw [sub64_eq (by omega) hm, sub64_eq (by omega) (by omega)]
    obtain ⟨b, hb⟩ := isPrime64_isSome sv (m - p - a) hlen (by omega)
    rw [phase1Inner, hsub, if_neg (by omega), hb]
    simp only
    by_cases hacc : (b && m - p - a != p && m - p - a != a) = true
    · rw [if_pos hacc]
      exact ⟨a, m - p - a, rfl, haq⟩
    · rw [if_neg hacc]
      have hne : q ≠ a := by
        rintro rfl
        rw [hb] at hprime
        simp only [Option.some.injEq] at hprime
        subst hprime
        apply hacc
        simp only [Bool.true_and, Bool.and_eq_true, bne_iff_ne, ne_eq]
        exact ⟨by omega, hrq⟩
      have hmem : q ∈ rest := by
        rcases List.mem_cons.mp hq with h | h
        · exact absurd h hne
        · exact h
      have hlt : a < q := hsorted.1 q hmem
      exact ih hchain.2 hsorted.2 (fun y hy => by have := hchain.1 y hy; omega)
        (fun v hv => hgt v (List.mem_cons_of_mem _ hv)) q hmem hqm hrq hprime

/-- Phase 1 returns a match at or before, in lexicographic order, any pair that
passes its tests. -/
theorem phase1_first (sv : Sieve) (m : Nat) (hm : m < U64)
    (hlen : 10000000 < sv.mark.length) :
    ∀ (L : List Nat), List.Chain' (fun a b => a < b ∧ b ≤ 2 * a) L →
      List.Pairwise (fun a b => a < b) L → (∀ v ∈ L, v < U32) →
      ∀ p ∈ L, ∀ q ∈ L, p < q → p + q + q ≤ m → m - p - q ≠ q →
      isPrime64 (m - p - q) sv = some true →
      ∃ p0 q0 r0, phase1 sv m L = some (some (p0, q0, r0)) ∧ (p0 < p ∨ (p0 = p ∧ q0 ≤ q)) := by
  intro L
  induction L with
  | nil => intro _ _ _ p hp; simp at hp
  | cons a rest ih =>
    intro hchain hsorted hsmall p hp q hq hpq hqm hrq hprime
    have ha : a < U32 := hsmall a (by simp)
    have hmod : (a * 3) % U128 = a * 3 :=
      Nat.mod_eq_of_lt (by unfold U32 at ha; unfold U128; omega)
    rw [List.pairwise_cons] at hsorted
    rw [List.chain'_cons'] at hchain
    have hap : a ≤ p := by
      rcases List.mem_cons.mp hp with h | h
      · omega
      · exact Nat.le_of_lt (hsorted.1 p h)
    have hqrest : q ∈ rest := by
      rcases List.mem_cons.mp hq with h | h
      · omega
      · exact h
    have hheadc : ∀ y ∈ rest.head?, a + y ≤ m := fun y hy => by
      have := hchain.1 y hy; omega
    obtain ⟨o, ho⟩ := phase1Inner_isSome sv m a hlen rest
    rw [phase1, hmod, if_neg (by omega), ho]
    cases o with
    | some qr =>
      obtain ⟨q1, r1⟩ := qr
      refine ⟨a, q1, r1, rfl, ?_⟩
      rcases Nat.eq_or_lt_of_le hap with h | h
      · right
        subst h
        obtain ⟨q0, r0, h0, hle⟩ := phase1Inner_first sv m a hm hlen rest hchain.2 hsorted.2
          hheadc hsorted.1 q hqrest hqm hrq hprime
        rw [ho] at h0
        simp only [Option.some.injEq, Prod.mk.injEq] at h0
        exact ⟨rfl, by omega⟩
      · exact Or.inl h
    | none =>
      have hne : p ≠ a := by
        rintro rfl
        obtain ⟨q0, r0, h0, -⟩ := phase1Inner_first sv m p hm hlen rest hchain.2 hsorted.2
          hheadc hsorted.1 q hqrest hqm hrq hprime
        rw [ho] at h0
        simp at h0
      have hmem : p ∈ rest := by
        rcases List.mem_cons.mp hp with h | h
        · exact absurd h hne
        · exact h
      exact ih hchain.2 hsorted.2 (fun v hv => hsmall v (List.mem_cons_of_mem _ hv))
        p hmem q hqrest hpq hqm hrq hprime

theorem Sieve.Valid.head_add_two {sv : Sieve} {lim m : Nat} (hv : sv.Valid lim) (h4 : 4 ≤ m) :
    ∀ y ∈ sv.primes.head?, y + 2 ≤ m := by
  intro y hy
  rcases hv.primes_head with h0 | ⟨rest, h0⟩
  · rw [h0] at hy; simp at hy
  · rw [h0] at hy
    simp only [List.head?_cons, Option.mem_def, Option.some.injEq] at hy
    omega

theorem cube_repr_of_even {n : Nat} {sv : Sieve} {p q : Nat} (hn : n ≤ 2642245)
    (hf : searchCube sv (cube64 n) = some (Found.even p q)) :
    cube_repr n sv = some (true, lineFound n 2 p q) := by
  unfold cube_repr
  rw [hf, cube64_eq hn]
  simp only [render_even]
  rfl

theorem cube_repr_of_nothing {n : Nat} {sv : Sieve} (hn : n ≤ 2642245)
    (hf : searchCube sv (cube64 n) = some Found.nothing) :
    cube_repr n sv = some (false, lineNone n) := by
  unfold cube_repr
  rw [hf, cube64_eq hn]
  rfl

/-- The oracle rejects every even number other than two. -/
theorem isPrime64_even {sv : Sieve} {lim x : Nat} (hv : sv.Valid lim) (h7 : 10000000 ≤ lim)
    (hx : x % 2 = 0) (hx2 : x ≠ 2) : isPrime64 x sv = some false := by
  by_cases hsmall : x ≤ 10000000
  · rw [isPrime64_small hv hsmall (by omega)]
    have : ¬ Nat.Prime x := by
      intro hp
      rcases hp.eq_two_or_odd with h | h
      · exact hx2 h
      · omega
    simp [this]
  · unfold isPrime64
    rw [if_neg hsmall, if_pos hx]

/-- The phase 0 candidate of the claim C14 leads to a reported `2 + p0 + q0`
with `p0` at most the candidate. -/
theorem searchCube_even_first {sv : Sieve} {lim m p : Nat} (hv : sv.Valid lim)
    (h7 : 10000000 ≤ lim) (hm : m < U64) (heven : m % 2 = 0) (hp : p ∈ sv.primes)
    (hp2 : p ≠ 2) (hq : p < m - 2 - p) (hprime : isPrime64 (m - 2 - p) sv = some true) :
    ∃ p0 q0, searchCube sv m = some (Found.even p0 q0) ∧ p0 ≤ p := by
  have hlen : 10000000 < sv.mark.length := by rw [hv.length_mark]; omega
  have hpge := ((hv.mem_primes p).mp hp).1
  obtain ⟨p0, q0, h0, hle⟩ := phase0_first sv m hm hlen sv.primes hv.chain hv.sorted
    (hv.head_add_two (by omega)) (fun v hmem => ((hv.mem_primes v).mp hmem).1) p hp hp2
    (by omega) hprime
  exact ⟨p0, q0, (searchCube_even_iff sv m p0 q0).mpr ⟨heven, h0⟩, hle⟩

/-- C14: first match wins.  For the sieve built with a limit of at least
`10000000` and `n ≤ 2642245`, `m = n ^ 3`: (1) when `m` is even and some sieve
prime `p ≠ 2` with `p < m`, `m - 2 - p > p` has `isPrime64(m - 2 - p)` true,
`cube_repr` reports `2 + p0 + q0` for a `p0` that passes the same test and is
at most `p`, hence for the smallest such prime; (2) when `cube_repr` reports
`p + q + r`, the pair `(p, q)` passes the test of the double loop and every
pair of sieve primes that passes it is lexicographically at or after `(p, q)`,
and no candidate of the even-cube phase passes. -/
theorem first_match_wins (lim n : Nat) (h7 : 10000000 ≤ lim) (hlim : lim < limBound)
    (hn : n ≤ 2642245) :
    ∃ sv, Sieve.build lim = some sv ∧
      (∀ p ∈ sv.primes, n ^ 3 % 2 = 0 → p ≠ 2 → p < n ^ 3 → p < n ^ 3 - 2 - p →
        isPrime64 (n ^ 3 - 2 - p) sv = some true →
        ∃ p0 q0, cube_repr n sv = some (true, lineFound n 2 p0 q0) ∧
          searchCube sv (cube64 n) = some (Found.even p0 q0) ∧ p0 ≤ p ∧
          p0 ∈ sv.primes ∧ p0 ≠ 2 ∧ p0 < n ^ 3 ∧ q0 = n ^ 3 - 2 - p0 ∧ p0 < q0 ∧
          isPrime64 q0 sv = some true) ∧
      (∀ p q r, searchCube sv (cube64 n) = some (Found.triple p q r) →
        (cube_repr n sv = some (true, lineFound n p q r) ∧
          p ∈ sv.primes ∧ q ∈ sv.primes ∧ p < q ∧ 3 * p ≤ n ^ 3 ∧ p + q ≤ n ^ 3 ∧
          r = n ^ 3 - p - q ∧ q ≤ r ∧ r ≠ q ∧ isPrime64 r sv = some true) ∧
        (∀ p1 ∈ sv.primes, ∀ q1 ∈ sv.primes, p1 < q1 → 3 * p1 ≤ n ^ 3 → p1 + q1 ≤ n ^ 3 →
          q1 ≤ n ^ 3 - p1 - q1 → n ^ 3 - p1 - q1 ≠ q1 →
          isPrime64 (n ^ 3 - p1 - q1) sv = some true → p < p1 ∨ (p = p1 ∧ q ≤ q1)) ∧
        (n ^ 3 % 2 = 0 → ∀ p1 ∈ sv.primes, p1 ≠ 2 → p1 < n ^ 3 → p1 < n ^ 3 - 2 - p1 →
          isPrime64 (n ^ 3 - 2 - p1) sv ≠ some true)) := by
  obtain ⟨sv, hsv, hv⟩ := build_valid lim (by omega) hlim
  have hc := cube64_eq hn
  have hm := cube_lt_U64 hn
  have hlen : 10000000 < sv.mark.length := by rw [hv.length_mark]; omega
  refine ⟨sv, hsv, ?_, ?_⟩
  · intro p hp heven hp2 _ hq hprime
    obtain ⟨p0, q0, h0, hle⟩ := searchCube_even_first hv h7 hm heven hp hp2 hq hprime
    obtain ⟨a1, a2, a3, a4, a5, a6⟩ := searchCube_even_sound hv hm (by omega) h0
    rw [← hc] at h0
    exact ⟨p0, q0, cube_repr_of_even hn h0, h0, hle, a1, a2, by omega, by omega, a4, a6⟩
  · intro p q r hf
    have hf3 := hf
    rw [hc] at hf3
    obtain ⟨a1, a2, a3, a4, a5, a6⟩ := searchCube_triple_sound hv hlim hm hf3
    refine ⟨⟨?_, a1, a2, a3, by omega, by omega, by omega, by omega, by omega, a6⟩, ?_, ?_⟩
    · unfold cube_repr
      rw [hf, hc]
      rfl
    · intro p1 hp1 q1 hq1 hlt _ hsum hle hne hprime
      obtain ⟨p0, q0, r0, h0, hord⟩ := phase1_first sv (n ^ 3) hm hlen sv.primes hv.chain
        hv.sorted (fun v hmem => hv.lt_U32 hlim hmem) p1 hp1 q1 hq1 hlt (by omega) hne hprime
      rw [((searchCube_triple_iff sv (n ^ 3) p q r).mp hf3).2] at h0
      simp only [Option.some.injEq, Prod.mk.injEq] at h0
      obtain ⟨rfl, rfl, rfl⟩ := h0
      exact hord
    · intro heven p1 hp1 hp12 _ hq1 hprime
      obtain ⟨p0, q0, h0, -⟩ := searchCube_even_first hv h7 hm heven hp1 hp12 hq1 hprime
      rw [hf3] at h0
      simp at h0

/-- Witness of C14 at the program's limit and `n = 4`. -/
theorem first_match_wins_witness :
    ∃ sv, Sieve.build 100000000 = some sv ∧
      (∀ p ∈ sv.primes, 4 ^ 3 % 2 = 0 → p ≠ 2 → p < 4 ^ 3 → p < 4 ^ 3 - 2 - p →
        isPrime64 (4 ^ 3 - 2 - p) sv = some true →
        ∃ p0 q0, cube_repr 4 sv = some (true, lineFound 4 2 p0 q0) ∧
          searchCube sv (cube64 4) = some (Found.even p0 q0) ∧ p0 ≤ p ∧
          p0 ∈ sv.primes ∧ p0 ≠ 2 ∧ p0 < 4 ^ 3 ∧ q0 = 4 ^ 3 - 2 - p0 ∧ p0 < q0 ∧
          isPrime64 q0 sv = some true) ∧
      (∀ p q r, searchCube sv (cube64 4) = some (Found.triple p q r) →
        (cube_repr 4 sv = some (true, lineFound 4 p q r) ∧
          p ∈ sv.primes ∧ q ∈ sv.primes ∧ p < q ∧ 3 * p ≤ 4 ^ 3 ∧ p + q ≤ 4 ^ 3 ∧
          r = 4 ^ 3 - p - q ∧ q ≤ r ∧ r ≠ q ∧ isPrime64 r sv = some true) ∧
        (∀ p1 ∈ sv.primes, ∀ q1 ∈ sv.primes, p1 < q1 → 3 * p1 ≤ 4 ^ 3 → p1 + q1 ≤ 4 ^ 3 →
          q1 ≤ 4 ^ 3 - p1 - q1 → 4 ^ 3 - p1 - q1 ≠ q1 →
          isPrime64 (4 ^ 3 - p1 - q1) sv = some true → p < p1 ∨ (p = p1 ∧ q ≤ q1)) ∧
        (4 ^ 3 % 2 = 0 → ∀ p1 ∈ sv.primes, p1 ≠ 2 → p1 < 4 ^ 3 → p1 < 4 ^ 3 - 2 - p1 →
          isPrime64 (4 ^ 3 - 2 - p1) sv ≠ some true)) :=
  first_match_wins 100000000 4 (by decide) (by decide) (by decide)

/-! ## Theorems: even cubes, and exhaustiveness -/

/-- For an even `m`, a match of phase 1 starts with `p = 2` and its `q` is a
candidate that phase 0 accepts. -/
theorem phase1_match_even {sv : Sieve} {lim m p q r : Nat} (hv : sv.Valid lim)
    (h7 : 10000000 ≤ lim) (hlim : lim < limBound) (hm : m < U64) (heven : m % 2 = 0)
    (h : phase1 sv m sv.primes = some (some (p, q, r))) :
    p = 2 ∧ q ∈ sv.primes ∧ q ≠ 2 ∧ q < m - 2 - q ∧ isPrime64 (m - 2 - q) sv = some true := by
  obtain ⟨a1, a2, a3, a4, a5, a6⟩ := phase1_sound sv m hm sv.primes p q r hv.chain hv.sorted
    (fun v hmem => hv.lt_U32 hlim hmem) h
  obtain ⟨hp2, -, hpp⟩ := (hv.mem_primes p).mp a1
  obtain ⟨hq2, -, hqp⟩ := (hv.mem_primes q).mp a2
  have hp : p = 2 := by
    by_contra hne
    have hpodd : p % 2 = 1 := by
      rcases hpp.eq_two_or_odd with h | h
      · exact absurd h hne
      · exact h
    have hqodd : q % 2 = 1 := by
      rcases hqp.eq_two_or_odd with h | h
      · omega
      · exact h
    have hr := isPrime64_even hv h7 (by omega : r % 2 = 0) (by omega)
    rw [hr] at a6
    simp at a6
  subst hp
  have hr : m - 2 - q = r := by omega
  exact ⟨rfl, a2, by omega, by omega, by rw [hr]; exact a6⟩

/-- C19: for the sieve built with a limit of at least `10000000` and an even
`n ≤ 2642245`, when the even-cube phase ends without a match the double loop
ends without one too and the line is `NO REPRESENTATION FOUND`; so `cube_repr`
never reports a line `p + q + r` of the double loop for an even `n`. -/
theorem even_cube_shortcut_complete (lim n : Nat) (h7 : 10000000 ≤ lim)
    (hlim : lim < limBound) (hn : n ≤ 2642245) (heven : n % 2 = 0) :
    ∃ sv, Sieve.build lim = some sv ∧ cube64 n % 2 = 0 ∧
      (phase0 sv (cube64 n) sv.primes = some none →
        phase1 sv (cube64 n) sv.primes = some none ∧
        cube_repr n sv = some (false, lineNone n)) ∧
      (∀ p q r, searchCube sv (cube64 n) ≠ some (Found.triple p q r)) ∧
      (∀ line, cube_repr n sv = some (true, line) →
        ∃ p q, searchCube sv (cube64 n) = some (Found.even p q) ∧ line = lineFound n 2 p q) := by
  obtain ⟨sv, hsv, hv⟩ := build_valid lim (by omega) hlim
  have hc := cube64_eq hn
  have hm := cube_lt_U64 hn
  have hlen : 10000000 < sv.mark.length := by rw [hv.length_mark]; omega
  have hmeven : n ^ 3 % 2 = 0 := by
    have : 2 ∣ n ^ 3 := Dvd.dvd.pow (Nat.dvd_of_mod_eq_zero heven) (by norm_num)
    omega
  have key : phase0 sv (n ^ 3) sv.primes = some none →
      phase1 sv (n ^ 3) sv.primes = some none := by
    intro h0
    obtain ⟨o, ho⟩ := phase1_isSome sv (n ^ 3) hlen sv.primes
    cases o with
    | none => exact ho
    | some t =>
      obtain ⟨p, q, r⟩ := t
      obtain ⟨-, b1, b2, b3, b4⟩ := phase1_match_even hv h7 hlim hm hmeven ho
      obtain ⟨p0, q0, c1, -⟩ := searchCube_even_first hv h7 hm hmeven b1 b2 b3 b4
      rw [searchCube_even_iff, h0] at c1
      simp at c1
  have notriple : ∀ p q r, searchCube sv (n ^ 3) ≠ some (Found.triple p q r) := by
    intro p q r hf
    rw [searchCube_triple_iff, if_pos hmeven] at hf
    have := key hf.1
    rw [hf.2] at this
    simp at this
  rw [hc]
  refine ⟨sv, hsv, hmeven, fun h0 => ⟨key h0, ?_⟩, notriple, ?_⟩
  · apply cube_repr_of_nothing hn
    rw [hc]
    unfold searchCube
    rw [if_pos hmeven, h0, key h0]
  · intro line hline
    unfold cube_repr at hline
    rw [hc] at hline
    cases hs : searchCube sv (n ^ 3) with
    | none => simp [hs] at hline
    | some f =>
      cases f with
      | even p q =>
        refine ⟨p, q, rfl, ?_⟩
        have := cube_repr_of_even hn (by rw [hc]; exact hs)
        unfold cube_repr at this
        rw [hc, hs] at this
        rw [hs] at hline
        simp only [Option.some.injEq] at this hline
        rw [this] at hline
        simp only [Prod.mk.injEq, true_and] at hline
        exact hline.symm
      | triple p q r => exact absurd hs (notriple p q r)
      | nothing => simp [hs, render] at hline

/-- Witness of C19 at the program's limit and `n = 4`. -/
theorem even_cube_shortcut_complete_witness :
    ∃ sv, Sieve.build 100000000 = some sv ∧ cube64 4 % 2 = 0 ∧
      (phase0 sv (cube64 4) sv.primes = some none →
        phase1 sv (cube64 4) sv.primes = some none ∧
        cube_repr 4 sv = some (false, lineNone 4)) ∧
      (∀ p q r, searchCube sv (cube64 4) ≠ some (Found.triple p q r)) ∧
      (∀ line, cube_repr 4 sv = some (true, line) →
        ∃ p q, searchCube sv (cube64 4) = some (Found.even p q) ∧ line = lineFound 4 2 p q) :=
  even_cube_shortcut_complete 100000000 4 (by decide) (by decide) (by decide) (by decide)

/-- C20: for the sieve built with limit `lim ≥ 10000000` (as the program's
`100000000`) and `n ≤ 2642245`: whenever primes `p < q < r` with
`p + q + r = n ^ 3` and `q ≤ lim` exist, `cube_repr` returns `true`; so when it
returns `false` there is no such triple. -/
theorem not_found_exhaustive (lim n : Nat) (h7 : 10000000 ≤ lim) (hlim : lim < limBound)
    (hn : n ≤ 2642245) :
    ∃ sv, Sieve.build lim = some sv ∧
      ((∃ p q r, Nat.Prime p ∧ Nat.Prime q ∧ Nat.Prime r ∧ p < q ∧ q < r ∧
          p + q + r = n ^ 3 ∧ q ≤ lim) →
        ∃ line, cube_repr n sv = some (true, line)) ∧
      (∀ line, cube_repr n sv = some (false, line) →
        ¬ ∃ p q r, Nat.Prime p ∧ Nat.Prime q ∧ Nat.Prime r ∧ p < q ∧ q < r ∧
          p + q + r = n ^ 3 ∧ q ≤ lim) := by
  obtain ⟨sv, hsv, hv⟩ := build_valid lim (by omega) hlim
  have hc := cube64_eq hn
  have hm := cube_lt_U64 hn
  have hlen : 10000000 < sv.mark.length := by rw [hv.length_mark]; omega
  have main : (∃ p q r, Nat.Prime p ∧ Nat.Prime q ∧ Nat.Prime r ∧ p < q ∧ q < r ∧
      p + q + r = n ^ 3 ∧ q ≤ lim) → ∃ line, cube_repr n sv = some (true, line) := by
    rintro ⟨p, q, r, hp, hq, hr, hpq, hqr, hsum, hql⟩
    have hpmem : p ∈ sv.primes := (hv.mem_primes p).mpr ⟨hp.two_le, by omega, hp⟩
    have hqmem : q ∈ sv.primes := (hv.mem_primes q).mpr ⟨hq.two_le, hql, hq⟩
    have hreq : n ^ 3 - p - q = r := by omega
    have hprime : isPrime64 (n ^ 3 - p - q) sv = some true := by
      rw [hreq]; exact isPrime64_prime hv h7 hr (by omega)
    obtain ⟨p0, q0, r0, h0, -⟩ := phase1_first sv (n ^ 3) hm hlen sv.primes hv.chain
      hv.sorted (fun v hmem => hv.lt_U32 hlim hmem) p hpmem q hqmem hpq (by omega)
      (by omega) hprime
    obtain ⟨o, ho⟩ := phase0_isSome sv (n ^ 3) hlen sv.primes
    unfold cube_repr searchCube
    rw [hc, ho, h0]
    by_cases heven : n ^ 3 % 2 = 0
    · rw [if_pos heven]
      cases o with
      | none => exact ⟨_, rfl⟩
      | some pq => exact ⟨(render n (n ^ 3) (Found.even pq.1 pq.2)).2, rfl⟩
    · rw [if_neg heven]
      exact ⟨_, rfl⟩
  refine ⟨sv, hsv, main, fun line hline hex => ?_⟩
  obtain ⟨line1, h1⟩ := main hex
  rw [h1] at hline
  simp at hline

/-- Witness of C20 at the program's limit and `n = 3`. -/
theorem not_found_exhaustive_witness :
    ∃ sv, Sieve.build 100000000 = some sv ∧
      ((∃ p q r, Nat.Prime p ∧ Nat.Prime q ∧ Nat.Prime r ∧ p < q ∧ q < r ∧
          p + q + r = 3 ^ 3 ∧ q ≤ 100000000) →
        ∃ line, cube_repr 3 sv = some (true, line)) ∧
      (∀ line, cube_repr 3 sv = some (false, line) →
        ¬ ∃ p q r, Nat.Prime p ∧ Nat.Prime q ∧ Nat.Prime r ∧ p < q ∧ q < r ∧
          p + q + r = 3 ^ 3 ∧ q ≤ 100000000) :=
  not_found_exhaustive 100000000 3 (by decide) (by decide) (by decide)

/-! ## Theorems: the leading numeral of a line -/

theorem digitChar_facts :
    ∀ k, k < 10 → (Nat.digitChar k).isDigit = true ∧ (Nat.digitChar k).toNat - 48 = k ∧
      ((Nat.digitChar k) != '^') = true := by
  decide

/-- The digits that `Nat.toDigits 10` puts in front of its accumulator are
decimal digits whose value is the number. -/
theorem toDigitsCore_spec :
    ∀ (fuel n : Nat) (acc : List Char), n < fuel →
      ∃ ds, Nat.toDigitsCore 10 fuel n acc = ds ++ acc ∧ ds ≠ [] ∧
        (∀ c ∈ ds, c.isDigit = true ∧ (c != '^') = true) ∧
        ∀ v, ds.foldl (fun a c => 10 * a + (c.toNat - 48)) v = v * 10 ^ ds.length + n := by
  intro fuel
  induction fuel with
  | zero => intro n acc h; omega
  | succ fuel ih =>
    intro n acc hn
    obtain ⟨d1, d2, d3⟩ := digitChar_facts (n % 10) (Nat.mod_lt _ (by norm_num))
    by_cases h0 : n / 10 = 0
    · refine ⟨[Nat.digitChar (n % 10)], ?_, by simp, ?_, ?_⟩
      · simp [Nat.toDigitsCore, h0]
      · intro c hc
        simp only [List.mem_singleton] at hc
        subst hc
        exact ⟨d1, d3⟩
      · intro v
        simp only [List.foldl_cons, List.foldl_nil, List.length_singleton, pow_one, d2]
        omega
    · obtain ⟨ds, e1, e2, e3, e4⟩ := ih (n / 10) (Nat.digitChar (n % 10) :: acc) (by omega)
      refine ⟨ds ++ [Nat.digitChar (n % 10)], ?_, by simp, ?_, ?_⟩
      · simp [Nat.toDigitsCore, h0, e1]
      · intro c hc
        rcases List.mem_append.mp hc with h | h
        · exact e3 c h
        · simp only [List.mem_singleton] at h
          subst h
          exact ⟨d1, d3⟩
      · intro v
        rw [List.foldl_append, e4 v]
        simp only [List.foldl_cons, List.foldl_nil, d2, List.length_append,
          List.length_singleton, pow_succ]
        have := Nat.div_add_mod n 10
        nlinarith

theorem takeWhile_append_stop {p : Char → Bool} :
    ∀ (ds : List Char) (c : Char) (rest : List Char), (∀ x ∈ ds, p x = true) → p c = false →
      (ds ++ c :: rest).takeWhile p = ds := by
  intro ds
  induction ds with
  | nil => intro c rest _ hc; simp [List.takeWhile, hc]
  | cons d ds ih =>
    intro c rest hall hc
    have hd : p d = true := hall d (by simp)
    rw [List.cons_append, List.takeWhile_cons_of_pos hd,
      ih c rest (fun x hx => hall x (List.mem_cons_of_mem _ hx)) hc]

theorem takeWhile_all {p : Char → Bool} :
    ∀ (ds : List Char), (∀ x ∈ ds, p x = true) → ds.takeWhile p = ds := by
  intro ds
  induction ds with
  | nil => intro _; rfl
  | cons d ds ih =>
    intro hall
    have hd : p d = true := hall d (by simp)
    rw [List.takeWhile_cons_of_pos hd, ih (fun x hx => hall x (List.mem_cons_of_mem _ hx))]

/-- A line that starts with the decimal numeral of `n` followed by `^` has key `n`. -/
theorem lineKey_numeral (n : Nat) (hn : n < U64) (rest : String) :
    lineKey (toString n ++ ("^" ++ rest)) = some n := by
  obtain ⟨ds, e1, e2, e3, e4⟩ := toDigitsCore_spec (n + 1) n [] (Nat.lt_succ_self n)
  rw [List.append_nil] at e1
  have hdata : (toString n ++ ("^" ++ rest)).data = ds ++ '^' :: rest.data := by
    have : (toString n).data = ds := by
      show (Nat.repr n).data = ds
      simp only [Nat.repr, Nat.toDigits, e1]
      rfl
    simp only [String.data_append, this]
    rfl
  have hbefore : beforeCaret (toString n ++ ("^" ++ rest)) = ds := by
    unfold beforeCaret
    rw [hdata]
    exact takeWhile_append_stop ds '^' rest.data (fun x hx => (e3 x hx).2) (by decide)
  have hval : digitsValue ds = n := by
    unfold digitsValue
    rw [e4 0]
    simp
  unfold lineKey stoull
  rw [hbefore, takeWhile_all ds (fun x hx => (e3 x hx).1), if_neg e2, hval, if_pos hn]

theorem render_starts (n m : Nat) (f : Found) :
    ∃ rest, (render n m f).2 = toString n ++ ("^" ++ rest) := by
  have h : "^3 = " = "^" ++ "3 = " := by decide
  cases f with
  | even p q =>
    refine ⟨"3 = " ++ (toString m ++ (" = 2 + " ++ (toString p ++ (" + " ++ toString q)))), ?_⟩
    simp only [render]
    rw [h]
    simp only [String.append_assoc]
  | triple p q r =>
    refine ⟨"3 = " ++ (toString m ++ (" = " ++ (toString p ++ (" + " ++ (toString q ++
      (" + " ++ toString r)))))), ?_⟩
    simp only [render]
    rw [h]
    simp only [String.append_assoc]
  | nothing =>
    refine ⟨"3 = " ++ (toString m ++ ": NO REPRESENTATION FOUND"), ?_⟩
    simp only [render]
    rw [h]
    simp only [String.append_assoc]

/-- The line of `n` exists and its leading numeral is `n`. -/
theorem lineOf_key {sv : Sieve} {n : Nat} (hlen : 10000000 < sv.mark.length)
    (hn : n ≤ 2642245) :
    (∃ b, cube_repr n sv = some (b, lineOf sv n)) ∧ lineKey (lineOf sv n) = some n := by
  obtain ⟨f, hf⟩ := searchCube_isSome sv (cube64 n) hlen
  have hrep : cube_repr n sv = some (render n (cube64 n) f) := by
    unfold cube_repr; rw [hf]
  have hline : lineOf sv n = (render n (cube64 n) f).2 := by
    unfold lineOf; rw [hrep]
  obtain ⟨rest, hrest⟩ := render_starts n (cube64 n) f
  refine ⟨⟨(render n (cube64 n) f).1, by rw [hrep, hline]⟩, ?_⟩
  rw [hline, hrest]
  exact lineKey_numeral n (by unfold U64; omega) rest

/-- A list sorted by key that is a permutation of a list with strictly
ascending keys is that list. -/
theorem eq_of_perm_of_keyLe {lines res : List String}
    (hlines : lines.Pairwise (fun x y => (lineKey x).getD 0 < (lineKey y).getD 0))
    (hperm : res.Perm lines) (hres : res.Pairwise keyLe) : res = lines := by
  have hnodup : (lines.map (fun x => (lineKey x).getD 0)).Nodup := by
    rw [List.Nodup, List.pairwise_map]
    exact hlines.imp (fun h => Nat.ne_of_lt h)
  have hnodup2 : (res.map (fun x => (lineKey x).getD 0)).Nodup :=
    (hperm.map _).nodup_iff.mpr hnodup
  rw [List.Nodup, List.pairwise_map] at hnodup2
  have hstrict : res.Pairwise (fun x y => (lineKey x).getD 0 < (lineKey y).getD 0) := by
    refine (hres.and hnodup2).imp ?_
    rintro a b ⟨h1, h2⟩
    unfold keyLe at h1
    omega
  haveI : IsAntisymm String (fun x y => (lineKey x).getD 0 < (lineKey y).getD 0) :=
    ⟨fun a b h1 h2 => absurd h1 (Nat.lt_asymm h2)⟩
  exact List.eq_of_perm_of_sorted hperm hstrict hlines

theorem pairwise_of_length_le_one {α : Type} (R : α → α → Prop) :
    ∀ l : List α, l.length ≤ 1 → l.Pairwise R := by
  intro l h
  match l, h with
  | [], _ => exact List.Pairwise.nil
  | [a], _ => exact List.pairwise_singleton R a
  | a :: b :: t, h => simp at h

/-- Sorting any permutation of lines whose keys can all be read and ascend
strictly gives back the lines. -/
theorem sortLines_perm {lines out : List String}
    (hkeys : ∀ x ∈ lines, (lineKey x).isSome = true)
    (hlines : lines.Pairwise (fun x y => (lineKey x).getD 0 < (lineKey y).getD 0))
    (hperm : out.Perm lines) : sortLines out = some lines := by
  unfold sortLines
  by_cases hlen : out.length ≤ 1
  · rw [if_pos hlen, eq_of_perm_of_keyLe hlines hperm (pairwise_of_length_le_one _ out hlen)]
  · have hall : out.all (fun x => (lineKey x).isSome) = true := by
      rw [List.all_eq_true]
      intro x hx
      exact hkeys x (hperm.mem_iff.mp hx)
    rw [if_neg hlen, if_pos hall]
    haveI : IsTotal String keyLe := ⟨fun a b => Nat.le_total _ _⟩
    haveI : IsTrans String keyLe := ⟨fun a b c h1 h2 => Nat.le_trans h1 h2⟩
    rw [eq_of_perm_of_keyLe hlines ((List.perm_insertionSort keyLe out).trans hperm)
      (List.sorted_insertionSort keyLe out)]

theorem keyLe_of_not_cmp {x y : String} (hx : (lineKey x).isSome = true)
    (hy : (lineKey y).isSome = true) (h : cmpLines y x ≠ some true) : keyLe x y := by
  obtain ⟨a, ha⟩ := Option.isSome_iff_exists.mp hx
  obtain ⟨b, hb⟩ := Option.isSome_iff_exists.mp hy
  unfold keyLe
  unfold cmpLines at h
  rw [ha, hb] at h ⊢
  simp only [Option.getD_some]
  by_contra hlt
  apply h
  simp only [Option.some.injEq, decide_eq_true_eq]
  omega

/-- C12: for the sieve built with a limit of at least `10000000` and a range
`start..stop` with `stop ≤ 2642245`, the line of every `n` of the range has
leading numeral `n`, and for every permutation `out` of the list of lines
`[cube_repr(n) | n = start..stop]` the sort of `main` returns exactly that
list, in the order `start, start + 1, …, stop`; moreover every arrangement of
`out` in which the comparator of `main` never puts a later line before an
earlier one is that list, so the result does not depend on the sorting
algorithm either. -/
theorem sorted_output_deterministic (lim start stop : Nat) (h7 : 10000000 ≤ lim)
    (hlim : lim < limBound) (hstop : stop ≤ 2642245) :
    ∃ sv, Sieve.build lim = some sv ∧
      (∀ n, start ≤ n → n ≤ stop →
        (∃ b, cube_repr n sv = some (b, lineOf sv n)) ∧ lineKey (lineOf sv n) = some n) ∧
      ∀ out : List String, out.Perm ((List.range' start (stop + 1 - start)).map (lineOf sv)) →
        sortLines out = some ((List.range' start (stop + 1 - start)).map (lineOf sv)) ∧
        ∀ res : List String, res.Perm out →
          res.Pairwise (fun x y => cmpLines y x ≠ some true) →
          res = (List.range' start (stop + 1 - start)).map (lineOf sv) := by
  obtain ⟨sv, hsv, hv⟩ := build_valid lim (by omega) hlim
  have hlen : 10000000 < sv.mark.length := by rw [hv.length_mark]; omega
  have hkey : ∀ n, n ∈ List.range' start (stop + 1 - start) →
      lineKey (lineOf sv n) = some n := by
    intro n hn
    rw [List.mem_range'_1] at hn
    exact (lineOf_key hlen (by omega)).2
  have hkeys : ∀ x ∈ (List.range' start (stop + 1 - start)).map (lineOf sv),
      (lineKey x).isSome = true := by
    intro x hx
    obtain ⟨n, hn, rfl⟩ := List.mem_map.mp hx
    rw [hkey n hn]
    rfl
  have hlines : ((List.range' start (stop + 1 - start)).map (lineOf sv)).Pairwise
      (fun x y => (lineKey x).getD 0 < (lineKey y).getD 0) := by
    rw [List.pairwise_map]
    refine (List.pairwise_lt_range' start (stop + 1 - start)).imp_of_mem ?_
    intro a b ha hb hab
    rw [hkey a ha, hkey b hb]
    exact hab
  refine ⟨sv, hsv, fun n h1 h2 => lineOf_key hlen (by omega), fun out hperm => ?_⟩
  refine ⟨sortLines_perm hkeys hlines hperm, fun res hres hsorted => ?_⟩
  have hmem : ∀ x ∈ res, (lineKey x).isSome = true := fun x hx =>
    hkeys x ((hres.trans hperm).mem_iff.mp hx)
  refine eq_of_perm_of_keyLe hlines (hres.trans hperm) (hsorted.imp_of_mem ?_)
  intro a b ha hb hab
  exact keyLe_of_not_cmp (hmem a ha) (hmem b hb) hab

/-- Witness of C12 at the program's limit and the range `3..5`; the sort
itself, run on the two lines of `n = 4` and `n = 3`, puts them in order. -/
theorem sorted_output_deterministic_witness :
    sortLines ["4^3 = 64 = 2 + 3 + 59", "3^3 = 27 = 3 + 5 + 19"] =
      some ["3^3 = 27 = 3 + 5 + 19", "4^3 = 64 = 2 + 3 + 59"] ∧
    ∃ sv, Sieve.build 100000000 = some sv ∧
      (∀ n, 3 ≤ n → n ≤ 5 →
        (∃ b, cube_repr n sv = some (b, lineOf sv n)) ∧ lineKey (lineOf sv n) = some n) ∧
      ∀ out : List String, out.Perm ((List.range' 3 (5 + 1 - 3)).map (lineOf sv)) →
        sortLines out = some ((List.range' 3 (5 + 1 - 3)).map (lineOf sv)) ∧
        ∀ res : List String, res.Perm out →
          res.Pairwise (fun x y => cmpLines y x ≠ some true) →
          res = (List.range' 3 (5 + 1 - 3)).map (lineOf sv) :=
  ⟨by decide, sorted_output_deterministic 100000000 3 5 (by decide) (by decide) (by decide)⟩

/-! ## Theorems: every `n` is processed exactly once -/

/-- What one scheduled action does to the cursor, to `out`, to the lines still
held by workers and to the number of workers past their loop. -/
theorem stepAt_effect {α : Type} (work : Nat → α) (stop : Nat) :
    ∀ (ws : List (Worker α)) (i : Nat) (c : Ctx α),
      (stepAt work stop i c ws).2.length = ws.length ∧
      (((stepAt work stop i c ws).1 = c ∧ (stepAt work stop i c ws).2 = ws) ∨
       (c.next ≤ stop ∧ (stepAt work stop i c ws).1 = Ctx.mk ((c.next + 1) % U64) c.out ∧
          pend (stepAt work stop i c ws).2 = pend ws + {work c.next} ∧
          leftCount (stepAt work stop i c ws).2 = leftCount ws) ∨
       (stop < c.next ∧ (stepAt work stop i c ws).1 = Ctx.mk ((c.next + 1) % U64) c.out ∧
          pend (stepAt work stop i c ws).2 = pend ws ∧
          leftCount (stepAt work stop i c ws).2 = leftCount ws + 1) ∨
       (∃ loc : List α, (stepAt work stop i c ws).1 = Ctx.mk c.next (c.out ++ loc) ∧
          pend ws = pend (stepAt work stop i c ws).2 + (loc : Multiset α) ∧
          leftCount (stepAt work stop i c ws).2 = leftCount ws)) := by
  intro ws
  induction ws with
  | nil => intro i c; cases i <;> exact ⟨rfl, Or.inl ⟨rfl, rfl⟩⟩
  | cons w ws ih =>
    intro i c
    cases i with
    | zero =>
      obtain ⟨pc, loc⟩ := w
      refine ⟨by simp [stepAt], ?_⟩
      cases pc with
      | looping =>
        by_cases h : c.next ≤ stop
        · right; left
          refine ⟨h, by simp [stepAt, stepWorker, h], ?_, by simp [stepAt, stepWorker, h, leftCount]⟩
          simp only [stepAt, stepWorker, if_pos h, pend, pendingOf]
          simp only [reduceCtorEq, if_false, ← Multiset.coe_add]
          rw [add_right_comm]
          rfl
        · right; right; left
          refine ⟨by omega, by simp [stepAt, stepWorker, h], ?_,
            by simp [stepAt, stepWorker, h, leftCount]; omega⟩
          simp [stepAt, stepWorker, h, pend, pendingOf]
      | leaving =>
        right; right; right
        refine ⟨loc, by simp [stepAt, stepWorker], ?_, by simp [stepAt, stepWorker, leftCount]⟩
        simp [stepAt, stepWorker, pend, pendingOf, add_comm]
      | done =>
        left
        exact ⟨by simp [stepAt, stepWorker], by simp [stepAt, stepWorker]⟩
    | succ i =>
      obtain ⟨hlen, h⟩ := ih i c
      refine ⟨by simp [stepAt, hlen], ?_⟩
      rcases h with ⟨h1, h2⟩ | ⟨h1, h2, h3, h4⟩ | ⟨h1, h2, h3, h4⟩ | ⟨loc, h2, h3, h4⟩
      · left
        exact ⟨by simp [stepAt, h1], by simp [stepAt, h2]⟩
      · right; left
        refine ⟨h1, by simp [stepAt, h2], ?_, by simp [stepAt, leftCount, h4]⟩
        simp only [stepAt, pend, h3, add_assoc]
      · right; right; left
        refine ⟨h1, by simp [stepAt, h2], ?_, by simp [stepAt, leftCount, h4]; omega⟩
        simp only [stepAt, pend, h3]
      · right; right; right
        refine ⟨loc, by simp [stepAt, h2], ?_, by simp [stepAt, leftCount, h4]⟩
        simp only [stepAt, pend]
        rw [h3, add_assoc]

theorem leftCount_le {α : Type} : ∀ ws : List (Worker α), leftCount ws ≤ ws.length := by
  intro ws
  induction ws with
  | nil => simp [leftCount]
  | cons w ws ih =>
    simp only [leftCount, List.length_cons]
    split <;> omega

theorem all_done {α : Type} :
    ∀ ws : List (Worker α), (∀ w ∈ ws, w.pc = Pc.done) →
      pend ws = 0 ∧ leftCount ws = ws.length := by
  intro ws
  induction ws with
  | nil => intro _; simp [pend, leftCount]
  | cons w ws ih =>
    intro h
    have hw : w.pc = Pc.done := h w (by simp)
    obtain ⟨a, b⟩ := ih (fun v hv => h v (List.mem_cons_of_mem _ hv))
    constructor
    · simp [pend, pendingOf, hw, a]
    · simp [leftCount, hw, b]
      omega

theorem initPool_inv {α : Type} (work : Nat → α) (start stop k : Nat) :
    PoolInv work start stop k (initPool start k) := by
  have h : ∀ k : Nat, pend (List.replicate k (Worker.mk Pc.looping ([] : List α))) = 0 ∧
      leftCount (List.replicate k (Worker.mk Pc.looping ([] : List α))) = 0 := by
    intro k
    induction k with
    | zero => simp [pend, leftCount]
    | succ k ih => simp [List.replicate_succ, pend, pendingOf, leftCount, ih.1, ih.2]
  refine ⟨by simp [initPool], 0, ?_, by omega, ?_, ?_⟩
  · simp [initPool, (h k).1]
  · simp [initPool, (h k).2]
  · simp [initPool, (h k).2]

/-- One scheduled action keeps the invariant. -/
theorem stepAt_inv {α : Type} (work : Nat → α) (start stop k : Nat)
    (hwrap : start + (stop + 1 - start) + k + 1 < U64) (i : Nat)
    (s : Ctx α × List (Worker α)) (hs : PoolInv work start stop k s) :
    PoolInv work start stop k (stepAt work stop i s.1 s.2) := by
  obtain ⟨hk, c, hC, hc, hnext, hleft⟩ := hs
  obtain ⟨hlen, heff⟩ := stepAt_effect work stop s.2 i s.1
  have hL := leftCount_le s.2
  have hL1 := leftCount_le (stepAt work stop i s.1 s.2).2
  refine ⟨by rw [hlen, hk], ?_⟩
  rcases heff with ⟨h1, h2⟩ | ⟨h1, h2, h3, h4⟩ | ⟨h1, h2, h3, h4⟩ | ⟨loc, h2, h3, h4⟩
  · rw [h1, h2]
    exact ⟨c, hC, hc, hnext, hleft⟩
  · have hL0 : leftCount s.2 = 0 := by
      by_contra hne
      have := hleft (by omega)
      omega
    have hmod : (s.1.next + 1) % U64 = s.1.next + 1 := Nat.mod_eq_of_lt (by omega)
    refine ⟨c + 1, ?_, by omega, ?_, ?_⟩
    · rw [h2, h3, ← add_assoc, hC, List.range'_concat, List.map_append, ← Multiset.coe_add]
      simp only [List.map_cons, List.map_nil, Nat.one_mul]
      rw [hnext, hL0, Nat.add_zero]
      rfl
    · rw [h2, h4, hmod]
      simp only
      omega
    · intro h; omega
  · have hmod : (s.1.next + 1) % U64 = s.1.next + 1 := Nat.mod_eq_of_lt (by omega)
    have hceq : c = stop + 1 - start := by
      by_cases h0 : 0 < leftCount s.2
      · exact hleft h0
      · omega
    refine ⟨c, ?_, hc, ?_, fun _ => hceq⟩
    · rw [h2, h3]
      exact hC
    · rw [h2, h4, hmod]
      simp only
      omega
  · refine ⟨c, ?_, hc, ?_, ?_⟩
    · rw [h2]
      simp only
      rw [← Multiset.coe_add, add_assoc, add_comm (loc : Multiset α), ← h3]
      exact hC
    · rw [h2, h4]
      exact hnext
    · rw [h4]
      exact hleft

theorem runPool_inv {α : Type} (work : Nat → α) (start stop k : Nat)
    (hwrap : start + (stop + 1 - start) + k + 1 < U64) :
    ∀ (sched : List Nat) (s : Ctx α × List (Worker α)), PoolInv work start stop k s →
      PoolInv work start stop k (runPool work stop s sched) := by
  intro sched
  induction sched with
  | nil => intro s hs; exact hs
  | cons i sched ih =>
    intro s hs
    exact ih _ (stepAt_inv work start stop k hwrap i s hs)

/-- C13: for a range `start ≤ stop ≤ 2642245`, a number `k ≥ 1` of workers
(an `unsigned`, so below `2^32`) and every schedule of their atomic actions,
once all workers have returned the vector `out` is a permutation of the lines
of `start, start + 1, …, stop`: it has `stop - start + 1` entries, one for each
`n` of the range and none else.  With `work` the identity this says that each
`n` of the range is claimed exactly once. -/
theorem every_n_processed_once {α : Type} (work : Nat → α) (start stop k : Nat)
    (sched : List Nat) (hk : 1 ≤ k) (hk32 : k < U32) (hse : start ≤ stop)
    (hstop : stop ≤ 2642245)
    (hdone : ∀ w ∈ (runPool work stop (initPool start k) sched).2, w.pc = Pc.done) :
    (runPool work stop (initPool start k) sched).1.out.Perm
        ((List.range' start (stop + 1 - start)).map work) ∧
      (runPool work stop (initPool start k) sched).1.out.length = stop - start + 1 := by
  have hwrap : start + (stop + 1 - start) + k + 1 < U64 := by
    unfold U32 at hk32; unfold U64; omega
  obtain ⟨hlen, c, hC, hc, hnext, hleft⟩ :=
    runPool_inv work start stop k hwrap sched _ (initPool_inv work start stop k)
  obtain ⟨hp, hl⟩ := all_done _ hdone
  have hceq : c = stop + 1 - start := hleft (by omega)
  rw [hp, add_zero, hceq, Multiset.coe_eq_coe] at hC
  refine ⟨hC, ?_⟩
  rw [hC.length_eq, List.length_map, List.length_range']
  omega

/-- Witness of C13: two workers on the range `3..4` with the sieve of limit 60,
under the schedule in which worker 0 claims 3, worker 1 claims 4, both then
draw a number past the end, and worker 1 merges before worker 0. -/
theorem every_n_processed_once_witness :
    (runPool (lineOf sieve60) 4 (initPool 3 2) [0, 1, 0, 1, 1, 0]).1.out =
        ["4^3 = 64 = 2 + 3 + 59", "3^3 = 27 = 3 + 5 + 19"] ∧
      (runPool (lineOf sieve60) 4 (initPool 3 2) [0, 1, 0, 1, 1, 0]).1.out.Perm
        ((List.range' 3 (4 + 1 - 3)).map (lineOf sieve60)) ∧
      (runPool (lineOf sieve60) 4 (initPool 3 2) [0, 1, 0, 1, 1, 0]).1.out.length = 4 - 3 + 1 :=
  ⟨by decide,
    every_n_processed_once (lineOf sieve60) 3 4 2 [0, 1, 0, 1, 1, 0] (by decide) (by decide)
      (by decide) (by decide) (by decide)⟩

end CubePrime
